import Mathlib

/-!
# Verification of the HW1_CRAWLING review-extraction pipeline

Shallow embedding of the two Python scripts `G2-scraper/scraper.py` and
`Q5-parse/parse.py`.  HTML/JSON parsing performed by the external libraries
(BeautifulSoup, `json.loads`) is treated as the input boundary: a document is
modelled by the parse results of its script blocks and by the DOM features
that the scripts query.  Everything the scripts themselves compute (field
extraction, whitespace normalisation, dedupe, sort, fallback logic, output
assembly, exit behaviour) is embedded as executable Lean definitions.

Where CPython would raise an uncaught exception (attribute/type errors on
unexpectedly-typed JSON fields), the embedded functions return `Except.error`.
-/

deriving instance DecidableEq for Except

namespace Crawl

/-! JSON values, the result type of `json.loads`.  Numbers are modelled as
integers (all numeric fields the claims touch are integral); objects keep
the key insertion order of the Python `dict` produced by `json.loads`, whose
keys are unique.  `JList`/`JObj` are spine types; they are converted to
ordinary lists right away by `JList.toList`/`JObj.toList`. -/

mutual
inductive JSON where
  | null
  | bool (b : Bool)
  | num (n : Int)
  | str (s : String)
  | arr (xs : JList)
  | obj (kvs : JObj)
deriving DecidableEq, Repr
inductive JList where
  | nil
  | cons (hd : JSON) (tl : JList)
deriving DecidableEq, Repr
inductive JObj where
  | nil
  | cons (k : String) (v : JSON) (tl : JObj)
deriving DecidableEq, Repr
end

def JObj.toList : JObj → List (String × JSON)
  | .nil => []
  | .cons k v tl => (k, v) :: tl.toList

def JObj.ofList : List (String × JSON) → JObj
  | [] => .nil
  | (k, v) :: tl => .cons k v (JObj.ofList tl)

/-- Convenience constructor for object literals. -/
def jobj (kvs : List (String × JSON)) : JSON := .obj (JObj.ofList kvs)

def JList.toList : JList → List JSON
  | .nil => []
  | .cons hd tl => hd :: tl.toList

/-- Python truthiness of a JSON value (`bool(x)`). -/
def JSON.truthy : JSON → Bool
  | .null => false
  | .bool b => b
  | .num n => n != 0
  | .str s => s != ""
  | .arr xs => !(xs = .nil)
  | .obj kvs => !(kvs = .nil)

/-- `d.get(k)` on a parsed JSON object: `none` when the receiver is not an
object or the key is absent (Python `None`). -/
def JSON.get? : JSON → String → Option JSON
  | .obj kvs, k => List.lookup k kvs.toList
  | _, _ => none

/-- Truthiness of a Python value that may be `None` (absent). -/
def truthyO : Option JSON → Bool
  | none => false
  | some v => v.truthy

/-- Python `a or b` where `a` may be `None` and `b` is a plain value. -/
def pyOr (a : Option JSON) (b : JSON) : JSON :=
  match a with
  | some v => if v.truthy then v else b
  | none => b

/-! ## Whitespace normalisation (`norm` in both scripts)

`norm(s) = re.sub(r"\s+", " ", (s or "").strip())`: strip the ends, then
collapse every interior run of whitespace to a single space.  Whitespace is
modelled as the ASCII part of Python's `\s` class. -/

def isWS (c : Char) : Bool :=
  c = ' ' || c = '\t' || c = '\n' || c = '\r' || c = '\x0b' || c = '\x0c'

/-- Remove the maximal trailing run of whitespace. -/
def dropTrail : List Char → List Char
  | [] => []
  | c :: cs =>
    if dropTrail cs = [] then (if isWS c then [] else [c])
    else c :: dropTrail cs

/-- `str.strip()`: remove leading and trailing whitespace. -/
def pyStripL (l : List Char) : List Char := dropTrail (l.dropWhile isWS)

/-- One pass replacing every run of whitespace by a single space; the flag
records whether the previous character was whitespace (so the run's later
characters are dropped). -/
def collapseAux : Bool → List Char → List Char
  | _, [] => []
  | inWS, c :: cs =>
    if isWS c then
      if inWS then collapseAux true cs
      else ' ' :: collapseAux true cs
    else c :: collapseAux false cs

/-- Replace every run of whitespace by a single space (`re.sub(r"\s+", " ", ·)`). -/
def collapseWS (l : List Char) : List Char := collapseAux false l

/-- The `norm` helper shared by `scraper.py` and `parse.py`. -/
def norm (s : String) : String := String.mk (collapseWS (pyStripL s.data))

/-! ## Review records

A review record is a Python dict with at most these keys; `none` means the
key is absent.  Values are raw JSON values, exactly as the scripts store
them (`stars`, `date_local` and `review_id` are stored unchecked). -/

structure Rev where
  review_id : Option JSON := none
  author_ref : Option JSON := none
  reviewer : Option JSON := none
  stars : Option JSON := none
  date_local : Option JSON := none
  text : Option JSON := none
deriving DecidableEq, Repr

/-- Outcome of processing one cache entry: nothing, an appended review, or a
user-directory update. -/
inductive EAct where
  | skip
  | rev (r : Rev)
  | user (uid name : String)
deriving DecidableEq, Repr

/-- The characters after the first `':'`, when one occurs. -/
def afterColon : List Char → Option (List Char)
  | [] => none
  | c :: cs => if c = ':' then some cs else afterColon cs

/-- `s.split(":", 1)[-1]`: everything after the first colon, or `s` itself
when there is no colon. -/
def splitColonTail (s : String) : String :=
  match afterColon s.data with
  | some rest => String.mk rest
  | none => s

/-- `(x or \x7b\x7d).get(k)` where `x` is `val.get("text")` (or
`val.get("createdAt")`): raises `AttributeError` when `x` is truthy but not a
dict. -/
def subGet (x : Option JSON) (k : String) : Except Unit (Option JSON) :=
  match x with
  | some v =>
    if v.truthy then
      match v with
      | .obj _ => .ok (v.get? k)
      | _ => .error ()
    else .ok none
  | none => .ok none

/-- `(val.get("text") or \x7b\x7d).get("full") or (... ).get("plain") or ""`,
followed by the `.strip()`/`norm` call both scripts apply to the result:
a truthy non-string text raises (`AttributeError` on `.strip`).  Returns the
chosen raw text string (possibly empty). -/
def textOf (v : JSON) : Except Unit String := do
  let tf := v.get? "text"
  let a ← subGet tf "full"
  let b ← subGet tf "plain"
  match pyOr a (pyOr b (.str "")) with
  | .str s => .ok s
  | _ => .error ()

/-- `(val.get("createdAt") or \x7b\x7d).get("localDateTimeForBusiness") or
val.get("localizedDate") or ""`; the stored value is kept raw. -/
def dateOf (v : JSON) : Except Unit JSON := do
  let c ← subGet (v.get? "createdAt") "localDateTimeForBusiness"
  .ok (pyOr c (pyOr (v.get? "localizedDate") (.str "")))

/-- `val.get("encid") or val.get("reviewId") or key`. -/
def ridOf (k : String) (v : JSON) : JSON :=
  pyOr (v.get? "encid") (pyOr (v.get? "reviewId") (.str k))

/-- Author back-reference: `a["__ref"].split(":", 1)[-1]` when `author` is a
dict containing `__ref`; a non-string `__ref` raises on `.split`. -/
def authorRefOf (v : JSON) : Except Unit String :=
  match v.get? "author" with
  | some (.obj kvs) =>
    match List.lookup "__ref" (JObj.toList kvs) with
    | some (.str s) => .ok (splitColonTail s)
    | some _ => .error ()
    | none => .ok ""
  | _ => .ok ""

/-- `val.get("displayName") or ""`, fed to `html.unescape`: a truthy
non-string raises (`unescape` probes `"&" in s`). -/
def displayBase (v : JSON) : Except Unit String :=
  match v.get? "displayName" with
  | none => .ok ""
  | some w =>
    if w.truthy then
      match w with
      | .str s => .ok s
      | _ => .error ()
    else .ok ""

/-- The `__typename == "User"` branch, identical in both scripts.
`uesc` models `html.unescape` (applied to the display name). -/
def userAct (uesc : String → String) (k : String) (v : JSON) : Except Unit EAct := do
  let uid := splitColonTail k
  let base ← displayBase v
  let display := uesc base
  if uid ≠ "" ∧ display ≠ "" then .ok (.user uid display) else .ok .skip

/-- Build the review record appended by both scripts (fields in the order
review_id, author_ref, stars, date_local, text; `reviewer` is set later). -/
def mkRev (rid : JSON) (aref : String) (rating : Option JSON) (dl : JSON)
    (s : String) : Rev :=
  { review_id := some rid, author_ref := some (.str aref),
    stars := some (rating.getD .null), date_local := some dl,
    text := some (.str (norm s)) }

/-- The `__typename == "Review"` branch of `scraper.py`'s
`extract_reviews_from_html`: the text emptiness test
(`if not text.strip(): continue`) runs before any other field is computed. -/
def reviewBodyS (k : String) (v : JSON) : Except Unit EAct := do
  let s ← textOf v
  if pyStripL s.data = [] then .ok .skip
  else do
    let rating := v.get? "rating"
    let dl ← dateOf v
    let rid := ridOf k v
    let aref ← authorRefOf v
    .ok (.rev (mkRev rid aref rating dl s))

/-- The `__typename == "Review"` branch of `parse.py`'s
`parse_embedded_json`: rating, date, review id and author are computed
first; the record is appended only if `text and norm(text)` is truthy. -/
def reviewBodyP (k : String) (v : JSON) : Except Unit EAct := do
  let s ← textOf v
  let rating := v.get? "rating"
  let dl ← dateOf v
  let rid := ridOf k v
  let aref ← authorRefOf v
  if norm s = "" then .ok .skip
  else .ok (.rev (mkRev rid aref rating dl s))

/-- One cache entry of `scraper.py` (`t == "Review"`, `elif t == "User"`). -/
def entryActS (uesc : String → String) (k : String) (v : JSON) :
    Except Unit EAct :=
  match v with
  | .obj _ =>
    if v.get? "__typename" = some (.str "Review") then reviewBodyS k v
    else if v.get? "__typename" = some (.str "User") then userAct uesc k v
    else .ok .skip
  | _ => .ok .skip

/-- One cache entry of `parse.py` (`t == "Review"`, `elif t == "User"`). -/
def entryActP (uesc : String → String) (k : String) (v : JSON) :
    Except Unit EAct :=
  match v with
  | .obj _ =>
    if v.get? "__typename" = some (.str "Review") then reviewBodyP k v
    else if v.get? "__typename" = some (.str "User") then userAct uesc k v
    else .ok .skip
  | _ => .ok .skip

/-- `users[uid] = display` on a Python dict kept as an ordered assoc list
with unique keys: overwrite in place, else append. -/
def dinsert (m : List (String × String)) (k v : String) :
    List (String × String) :=
  if m.any (fun p => p.1 = k) then
    m.map (fun p => if p.1 = k then (k, v) else p)
  else m ++ [(k, v)]

/-- Process the entries of one parsed script object, threading the user map
left-to-right and collecting appended reviews in order. -/
def entriesOf (act : String → JSON → Except Unit EAct) :
    List (String × JSON) → List (String × String) →
    Except Unit (List Rev × List (String × String))
  | [], us => .ok ([], us)
  | (k, v) :: rest, us => do
    match ← act k v with
    | .skip => entriesOf act rest us
    | .rev r => do
      let (l, us') ← entriesOf act rest us
      .ok (r :: l, us')
    | .user uid nm => entriesOf act rest (dinsert us uid nm)

/-! ## Documents

A script block is modelled by the results of the two `json.loads` attempts
the scripts make on it: `parsedRaw` is `json.loads(tag.string)` (used by
`extract_business_info` on `application/ld+json` blocks), `parsedUnesc` is
`json.loads` of the HTML-unescaped, comment-delimiter-stripped content (used
by the review extractors); `none` means that parse raised.  A `Card` records,
for one candidate container (`article`/`section`/`div`/`li`), the DOM
features `dom_fallback_extract` queries: the `aria-label` attribute values of
its labelled descendants, the texts of its `time`/`span`/`div` descendants,
its links as (href, text) pairs, and the texts of its `p` descendants, each
in document order (`get_text(" ", strip=True)` values). -/

structure Script where
  isLd : Bool := false
  parsedRaw : Option JSON := none
  parsedUnesc : Option JSON := none
deriving DecidableEq, Repr

structure Card where
  ariaLabels : List String := []
  dateTexts : List String := []
  links : List (String × String) := []
  paragraphs : List String := []
deriving DecidableEq, Repr

structure Doc where
  scripts : List Script := []
  cards : List Card := []
  heading : Option String := none
deriving DecidableEq, Repr

/-- Scan all script blocks: a block whose content fails to parse, or parses
to a non-dict, is skipped; dict entries are processed in order. -/
def scriptsRevs (act : String → JSON → Except Unit EAct) :
    List Script → List (String × String) →
    Except Unit (List Rev × List (String × String))
  | [], us => .ok ([], us)
  | s :: rest, us =>
    match s.parsedUnesc with
    | some (.obj kvs) => do
      let (l1, us1) ← entriesOf act (JObj.toList kvs) us
      let (l2, us2) ← scriptsRevs act rest us1
      .ok (l1 ++ l2, us2)
    | _ => scriptsRevs act rest us

/-- `extract_reviews_from_html` of `scraper.py` (minus the library-side HTML
dissection): returns the review list and the user directory. -/
def scraperExtract (uesc : String → String) (scripts : List Script) :
    Except Unit (List Rev × List (String × String)) :=
  scriptsRevs (entryActS uesc) scripts []

/-- `parse_embedded_json` of `parse.py`. -/
def parseExtract (uesc : String → String) (scripts : List Script) :
    Except Unit (List Rev × List (String × String)) :=
  scriptsRevs (entryActP uesc) scripts []

/-! ## Author resolution -/

/-- `attach_reviewers` of `scraper.py`: only records carrying `author_ref`
are touched (`if "author_ref" in r`).  In every record the pipeline produces
`author_ref` is a string; the `_ => ""` arm is unreachable there (Python
would raise on an unhashable key). -/
def scraperAttach (revs : List Rev) (users : List (String × String)) :
    List Rev :=
  revs.map fun r =>
    match r.author_ref with
    | some v =>
      { r with
        reviewer := some (.str (match v with
          | .str s => (List.lookup s users).getD ""
          | _ => "")),
        author_ref := none }
    | none => r

/-- The author-resolution loop in `parse.py`'s `main`: `r["reviewer"] =
users.get(r.pop("author_ref", ""), "")`, with no presence test. -/
def parseAttach (revs : List Rev) (users : List (String × String)) :
    List Rev :=
  revs.map fun r =>
    { r with
      reviewer := some (.str (match r.author_ref with
        | some (.str s) => (List.lookup s users).getD ""
        | some _ => ""
        | none => (List.lookup "" users).getD "")),
      author_ref := none }

/-! ## Dedupe and sort (`dedupe_and_sort` in `scraper.py`, the bare sort in
`parse.py`'s `main`) -/

/-- The dedupe key actually computed by the code:
`r.get("review_id") or (r.get("reviewer", "") + "|" + r.get("date_local", ""))`,
followed by the `rid in seen` membership test.  Errors model `TypeError` on
concatenating a non-string and `TypeError: unhashable` on a list/dict key. -/
def keyOf (r : Rev) : Except Unit JSON := do
  let rid ← match r.review_id with
    | some v =>
      if v.truthy then Except.ok v
      else compositeKey r
    | none => compositeKey r
  match rid with
  | .arr _ => .error ()
  | .obj _ => .error ()
  | _ => .ok rid
where
  /-- `r.get("reviewer", "") + "|" + r.get("date_local", "")`. -/
  compositeKey (r : Rev) : Except Unit JSON :=
    match r.reviewer.getD (.str ""), r.date_local.getD (.str "") with
    | .str a, .str b => .ok (.str (a ++ "|" ++ b))
    | _, _ => .error ()

/-- The dedupe loop of `dedupe_and_sort`: records with falsy `text` are
skipped before any key is computed; the first occurrence of a key is kept
and later ones are dropped. -/
def dedupeAux : List JSON → List Rev → Except Unit (List Rev)
  | _, [] => .ok []
  | seen, r :: rs =>
    if truthyO r.text then do
      let k ← keyOf r
      if seen.contains k then dedupeAux seen rs
      else do
        let rest ← dedupeAux (k :: seen) rs
        .ok (r :: rest)
    else dedupeAux seen rs

/-- Sort key `lambda x: x.get("date_local", "")`. -/
def dateKey (r : Rev) : String :=
  match r.date_local with
  | some (.str s) => s
  | _ => ""

/-- Lexicographic `≤` on codepoint sequences: exactly how Python compares
two `str` values. -/
def leChars : List Char → List Char → Bool
  | [], _ => true
  | _ :: _, [] => false
  | a :: as, b :: bs =>
    if a < b then true
    else if a = b then leChars as bs
    else false

/-- Descending comparison on the raw date string: `a` may come before `b`. -/
def dateGE (a b : Rev) : Prop :=
  leChars (dateKey b).data (dateKey a).data = true

instance : DecidableRel dateGE := fun _ _ =>
  inferInstanceAs (Decidable (_ = true))

/-- Is `date_local` absent or a string?  `list.sort` compares the raw
values; with a non-string date Python may raise `TypeError` (depending on
which comparisons the sort performs), so the embedding conservatively treats
any run with a non-string date as erroring.  Every theorem below only
evaluates the sort on records whose dates are strings. -/
def datesOK (l : List Rev) : Bool :=
  l.all fun r =>
    match r.date_local with
    | none => true
    | some (.str _) => true
    | some _ => false

/-- `reviews.sort(key=lambda x: x.get("date_local", ""), reverse=True)`:
a stable descending sort, modelled by insertion sort with the reflexive
descending relation (which is stable in the same way CPython's sort is). -/
def sortRevs (l : List Rev) : Except Unit (List Rev) :=
  if datesOK l then .ok (l.insertionSort dateGE) else .error ()

/-- `dedupe_and_sort` of `scraper.py`. -/
def dedupeAndSort (l : List Rev) : Except Unit (List Rev) := do
  let d ← dedupeAux [] l
  sortRevs d

/-! ## DOM heuristic fallback (`dom_fallback_extract` in `parse.py`)

The regular expressions of the source are alternations of literals and
simple character classes; they are implemented directly.  Case folding and
the `\w` class are modelled on ASCII (Python's `re` also folds and counts
non-ASCII letters; the difference is confined to accented input characters
and affects no theorem below). -/

/-- Does `hay` start with `needle`? -/
def startsWithL : List Char → List Char → Bool
  | _, [] => true
  | [], _ :: _ => false
  | h :: hs, n :: ns => h = n && startsWithL hs ns

/-- Does `needle` occur as a contiguous run of `hay`? -/
def containsL (hay needle : List Char) : Bool :=
  startsWithL hay needle ||
    match hay with
    | [] => false
    | _ :: hs => containsL hs needle

/-- ASCII case folding (`re.I`; non-ASCII letters are left unchanged). -/
def lowerAscii (c : Char) : Char :=
  if 'A' ≤ c ∧ c ≤ 'Z' then Char.ofNat (c.toNat + 32) else c

def containsCI (hay pat : String) : Bool :=
  containsL (hay.data.map lowerAscii) (pat.data.map lowerAscii)

/-- `re.search(r"(star rating|étoile)", label, re.I)`. -/
def starLabelMatch (s : String) : Bool :=
  containsCI s "star rating" || containsCI s "étoile"

/-- First match of `([0-9]+(?:[.,][0-9]+)?)`: the first maximal digit run,
greedily extended by a separator and a second digit run. -/
def firstNum : List Char → Option (List Char)
  | [] => none
  | c :: cs =>
    if c.isDigit then
      let ds := (c :: cs).takeWhile Char.isDigit
      let rest := (c :: cs).dropWhile Char.isDigit
      match rest with
      | p :: d :: _ =>
        if (p = '.' || p = ',') && d.isDigit then
          some (ds ++ p :: (rest.drop 1).takeWhile Char.isDigit)
        else some ds
      | _ => some ds
    else firstNum cs

/-- `m.group(1).replace(",", ".")` applied to the star label, else `""`. -/
def starsOf (label : String) : String :=
  match firstNum label.data with
  | some l => String.mk (l.map fun c => if c = ',' then '.' else c)
  | none => ""

def isWordChar (c : Char) : Bool := c.isAlphanum || c = '_'

/-- `re.search(r"\b20\d\x7b2\x7d\b", s)`: a four-character `20dd` group with
non-word characters (or ends) on both sides. -/
def hasYear : Option Char → List Char → Bool
  | prev, '2' :: '0' :: d1 :: d2 :: rest =>
    (d1.isDigit && d2.isDigit &&
      (match prev with | some p => !isWordChar p | none => true) &&
      (match rest.head? with | some n => !isWordChar n | none => true))
    || hasYear (some '2') ('0' :: d1 :: d2 :: rest)
  | _, [] => false
  | _, [c] => hasYear (some c) []
  | _, c :: cs => hasYear (some c) cs

def monthsFR : List String :=
  ["janvier", "février", "mars", "avril", "mai", "juin", "juillet",
   "août", "septembre", "octobre", "novembre", "décembre"]

/-- The date heuristic: a word-bounded year `20dd` or a French month name,
case-insensitively. -/
def dateTextMatch (s : String) : Bool :=
  hasYear none s.data || monthsFR.any (fun m => containsCI s m)

/-- `looks_like_card`: a descendant with a star-rating `aria-label` and a
`p` descendant. -/
def looksLikeCard (c : Card) : Bool :=
  c.ariaLabels.any starLabelMatch && !c.paragraphs.isEmpty

/-- `max(ps, key=len)`: the first string of maximal length (`""` on `[]`). -/
def maxByLen : List String → String
  | [] => ""
  | x :: xs => xs.foldl (fun a b => if b.length > a.length then b else a) x

/-- `dom_fallback_extract`. -/
def domFallback (cards : List Card) : List Rev :=
  cards.filterMap fun t =>
    if looksLikeCard t then
      let stars := match t.ariaLabels.find? starLabelMatch with
        | some lab => starsOf lab
        | none => ""
      let date := (t.dateTexts.find? dateTextMatch).getD ""
      let reviewer := match t.links.find? (fun p => containsCI p.1 "/user_details") with
        | some (_, txt) => if norm txt = "" then "" else norm txt
        | none => ""
      let ps := (t.paragraphs.map norm).filter (fun p => p ≠ "")
      let text := maxByLen ps
      if text = "" then none
      else some { review_id := some (.str ""), reviewer := some (.str reviewer),
                  stars := some (.str stars), date_local := some (.str date),
                  text := some (.str text) }
    else none

/-! ## Business metadata (`extract_business_info` in `parse.py`) -/

structure Biz where
  name : JSON := .str ""
  overall_rating : String := ""
  total_review_count : String := ""
  priceRange : JSON := .str ""
deriving DecidableEq, Repr

/-- Python `str()` on the value kinds that reach it (`str(rv)`/`str(rc)`);
scalars are rendered exactly, containers by a placeholder (their exact
rendering is irrelevant: the theorems only compare candidates for equality
and emptiness, and a container rendering is never empty). -/
def pyStr : JSON → String
  | .null => "None"
  | .bool b => if b then "True" else "False"
  | .num n => toString n
  | .str s => s
  | .arr _ => "[...]"
  | .obj _ => "\x7b...\x7d"

/-- `str(rv) if rv is not None else ""`: a present JSON `null` is Python
`None` as well. -/
def strIfPresent : Option JSON → String
  | none => ""
  | some .null => ""
  | some v => pyStr v

/-! ### Matching blocks and per-block candidates of the business extractor
(used to state what `extract_business_info` computes). -/

/-- Does a parsed JSON-LD block pass
`isinstance(data, dict) and data.get("@type") in {...}`? -/
def bizMatches (d : JSON) : Bool :=
  match d with
  | .obj _ =>
    d.get? "@type" = some (.str "LocalBusiness") ||
    d.get? "@type" = some (.str "Restaurant") ||
    d.get? "@type" = some (.str "Organization")
  | _ => false

/-- The block's truthy `name` value, when any. -/
def candName (d : JSON) : Option JSON :=
  let v := (d.get? "name").getD (.str "")
  if v.truthy then some v else none

/-- The block's non-empty rating-value string, when any. -/
def candOR (d : JSON) : Option String :=
  match pyOr (d.get? "aggregateRating") (jobj []) with
  | .obj kvs =>
    let c := strIfPresent ((JSON.obj kvs).get? "ratingValue")
    if c ≠ "" then some c else none
  | _ => none

/-- The block's non-empty review-count string, when any. -/
def candRC (d : JSON) : Option String :=
  match pyOr (d.get? "aggregateRating") (jobj []) with
  | .obj kvs =>
    let c := strIfPresent ((JSON.obj kvs).get? "reviewCount")
    if c ≠ "" then some c else none
  | _ => none

/-- The block's truthy `priceRange` value, when any. -/
def candPR (d : JSON) : Option JSON :=
  match d.get? "priceRange" with
  | some v => if v.truthy then some v else none
  | none => none

/-- The per-block field updates: `name`, `overall_rating` and
`total_review_count` keep an already-truthy value; `priceRange` is
overwritten whenever the block's value is truthy. -/
def updateBiz (info : Biz) (d : JSON) : Biz :=
  let name := if info.name.truthy then info.name
    else
      let v := (d.get? "name").getD (.str "")
      if v.truthy then v else .str ""
  let agg := pyOr (d.get? "aggregateRating") (jobj [])
  let rc := match agg with
    | .obj _ =>
      (if info.overall_rating ≠ "" then info.overall_rating
       else strIfPresent (agg.get? "ratingValue"),
       if info.total_review_count ≠ "" then info.total_review_count
       else strIfPresent (agg.get? "reviewCount"))
    | _ => (info.overall_rating, info.total_review_count)
  let pr := d.get? "priceRange"
  { name := name, overall_rating := rc.1, total_review_count := rc.2,
    priceRange := if truthyO pr then pr.getD (.str "") else info.priceRange }

/-- Process one `application/ld+json` parse result.  The `@type` membership
test `data.get("@type") in \x7b...\x7d` raises `TypeError` on an unhashable
(list/dict) value — it sits outside the `try`. -/
def bizStep (info : Biz) (d : JSON) : Except Unit Biz :=
  match d with
  | .obj _ =>
    match d.get? "@type" with
    | some (.arr _) => .error ()
    | some (.obj _) => .error ()
    | _ =>
      if bizMatches d then .ok (updateBiz info d) else .ok info
  | _ => .ok info

/-- The `application/ld+json` blocks that parse (`json.loads(tag.string)`,
failures skipped). -/
def bizBlocks (ss : List Script) : List JSON :=
  ss.filterMap fun s => if s.isLd then s.parsedRaw else none

def extractBizAux (info : Biz) : List JSON → Except Unit Biz
  | [] => .ok info
  | d :: rest => do extractBizAux (← bizStep info d) rest

/-- `extract_business_info`: fold the JSON-LD blocks, then fall back to the
first `h1`/`h2` heading when the name is still falsy. -/
def extractBusinessInfo (scripts : List Script) (heading : Option String) :
    Except Unit Biz := do
  let info ← extractBizAux {} (bizBlocks scripts)
  if info.name.truthy then .ok info
  else
    match heading with
    | some h => .ok { info with name := .str (norm h) }
    | none => .ok info

/-! ## The two `main`s

`Except.error .exitNoInput` models the explicit `sys.exit` on missing input;
`Except.error .pyCrash` models an uncaught exception (also a non-zero exit).
File reading and output serialisation are the I/O boundary: an input file is
a `Doc`, the written JSON payload is the returned structure (`count` is the
length of the review list).  The scraper's global `user_map` cache is
write-only with respect to the outputs and is not modelled. -/

inductive RunErr where
  | exitNoInput
  | pyCrash
deriving DecidableEq, Repr

structure SOut where
  count : Nat
  reviews : List Rev
deriving DecidableEq, Repr

structure POut where
  business : Biz
  count : Nat
  reviews : List Rev
deriving DecidableEq, Repr

/-- The per-file loop of `scraper.py`'s `main`: extract, attach reviewers,
extend the accumulated list, in file order. -/
def scraperFiles (uesc : String → String) : List Doc → Except Unit (List Rev)
  | [] => .ok []
  | d :: rest => do
    let (revs, users) ← scraperExtract uesc d.scripts
    let more ← scraperFiles uesc rest
    .ok (scraperAttach revs users ++ more)

/-- `main` of `scraper.py`: `defaults` holds the three `DEFAULT_FILES` slots
(`none` = the file does not exist), `pages` the sorted `pages/*.html` list. -/
def scraperMain (uesc : String → String) (defaults : List (Option Doc))
    (pages : List Doc) : Except RunErr SOut :=
  let files := defaults.filterMap id ++ pages
  if files.isEmpty then .error .exitNoInput
  else
    match (do
      let all ← scraperFiles uesc files
      dedupeAndSort all : Except Unit (List Rev)) with
    | .error _ => .error .pyCrash
    | .ok final => .ok ⟨final.length, final⟩

/-- The body of `parse.py`'s `main` after the input check, in source order:
embedded extraction, author resolution, DOM fallback if empty, business
info, sort. -/
def parseBody (uesc : String → String) (d : Doc) :
    Except Unit (Biz × List Rev) := do
  let (revs, users) ← parseExtract uesc d.scripts
  let revs := parseAttach revs users
  let revs := if revs.isEmpty then domFallback d.cards else revs
  let biz ← extractBusinessInfo d.scripts d.heading
  let final ← sortRevs revs
  .ok (biz, final)

/-- `main` of `parse.py`: `none` input models a missing input file
(`sys.exit(...)`). -/
def parseMain (uesc : String → String) (input : Option Doc) :
    Except RunErr POut :=
  match input with
  | none => .error .exitNoInput
  | some d =>
    match parseBody uesc d with
    | .error _ => .error .pyCrash
    | .ok (biz, final) => .ok ⟨biz, final.length, final⟩

/-! ## Derived predicates and concrete inputs used by the claims -/

/-- A record whose `text` is a non-empty, whitespace-normalised string. -/
def goodText (r : Rev) : Prop :=
  ∃ t, r.text = some (.str t) ∧ t ≠ "" ∧ norm t = t

/-- The dedupe identifier as claim C2 words it: the explicit `review_id`
whenever the key is *present*, otherwise the `reviewer + "|" + date_local`
composite (string fields read as empty when absent).  This follows the
claim's wording and is compared against `keyOf`, which is what the code
computes (the code falls back on the composite whenever `review_id` is
*falsy*, e.g. the empty string). -/
def claimKey (r : Rev) : JSON :=
  match r.review_id with
  | some v => v
  | none =>
    .str ((match r.reviewer with | some (.str a) => a | _ => "") ++ "|" ++
          (match r.date_local with | some (.str b) => b | _ => ""))

/-- Is `text` truthy (the record survives the dedupe text filter)? -/
def textTruthy (r : Rev) : Bool := truthyO r.text

/-- The claim C4 scenario: one script block whose embedded JSON holds one
`Review` and one `User` cache entry. -/
def c4json : JSON := jobj [
  ("Review:abc", jobj [
    ("__typename", .str "Review"),
    ("text", jobj [("full", .str "Great food!")]),
    ("rating", .num 5),
    ("createdAt", jobj [("localDateTimeForBusiness", .str "2024-01-02")]),
    ("encid", .str "abc"),
    ("author", jobj [("__ref", .str "User:42")])]),
  ("User:42", jobj [("__typename", .str "User"), ("displayName", .str "Alex")])]

def c4doc : Doc := { scripts := [{ parsedUnesc := some c4json }] }

/-- The record claim C4 expects. -/
def c4rev : Rev :=
  { review_id := some (.str "abc"), author_ref := none,
    reviewer := some (.str "Alex"), stars := some (.num 5),
    date_local := some (.str "2024-01-02"), text := some (.str "Great food!") }

/-- A document whose only review entry carries `text` as a bare string:
`(val.get("text") or \x7b\x7d).get("full")` raises `AttributeError`, an
uncaught exception ending the run with a non-zero exit status. -/
def crashDoc : Doc :=
  { scripts := [{ parsedUnesc := some (jobj [
      ("k", jobj [("__typename", .str "Review"), ("text", .str "hi")])]) }] }

/-- A document where no script block parses as JSON and the only DOM card
matches no selector. -/
def emptyishDoc : Doc :=
  { scripts := [{ parsedUnesc := none }],
    cards := [{ paragraphs := ["x"] }] }

/-- Two records with *present but empty* `review_id` and distinct
reviewer/date composites (claim C2's key coincides on them, the code's
does not). -/
def c2r1 : Rev :=
  { review_id := some (.str ""), reviewer := some (.str "a"),
    date_local := some (.str "2"), text := some (.str "x") }

def c2r2 : Rev :=
  { review_id := some (.str ""), reviewer := some (.str "b"),
    date_local := some (.str "1"), text := some (.str "y") }

/-- One script block with a single `Review` entry (empty key, no author);
used twice over to exhibit that `parse.py` never deduplicates. -/
def c2script : Script :=
  { parsedUnesc := some (jobj [
      ("dup", jobj [
        ("__typename", .str "Review"),
        ("text", jobj [("full", .str "same")]),
        ("encid", .str "abc"),
        ("localizedDate", .str "2024")])]) }

def c2doc : Doc := { scripts := [c2script, c2script] }

/-- Two distinct records with distinct explicit ids and the same date. -/
def c3r1 : Rev :=
  { review_id := some (.str "a"), date_local := some (.str "2024-01-01"),
    text := some (.str "x") }

def c3r2 : Rev :=
  { review_id := some (.str "b"), date_local := some (.str "2024-01-01"),
    text := some (.str "y") }

/-- Two JSON-LD blocks of a business type, each with a truthy `priceRange`. -/
def c5s1 : Script :=
  { isLd := true,
    parsedRaw := some (jobj [("@type", .str "Restaurant"),
                             ("priceRange", .str "$$")]) }

def c5s2 : Script :=
  { isLd := true,
    parsedRaw := some (jobj [("@type", .str "Restaurant"),
                             ("priceRange", .str "$$$")]) }

/-- The pre-attach record extracted in the C4 scenario. -/
def c4pre : Rev :=
  { review_id := some (.str "abc"), author_ref := some (.str "42"),
    stars := some (.num 5), date_local := some (.str "2024-01-02"),
    text := some (.str "Great food!") }

/-- The record `parse.py` emits (twice) for `c2doc`. -/
def c2dup : Rev :=
  { review_id := some (.str "abc"), reviewer := some (.str ""),
    stars := some .null, date_local := some (.str "2024"),
    text := some (.str "same") }

/-- A document with two embedded reviews carrying different dates. -/
def c3doc : Doc := { scripts := [
  { parsedUnesc := some (jobj [
      ("Review:a", jobj [
        ("__typename", .str "Review"),
        ("text", jobj [("full", .str "x")]),
        ("encid", .str "a"),
        ("localizedDate", .str "2024-01-01")]),
      ("Review:b", jobj [
        ("__typename", .str "Review"),
        ("text", jobj [("full", .str "y")]),
        ("encid", .str "b"),
        ("localizedDate", .str "2024-03-05")])]) }] }

def c3ra : Rev :=
  { review_id := some (.str "a"), reviewer := some (.str ""),
    stars := some .null, date_local := some (.str "2024-01-01"),
    text := some (.str "x") }

def c3rb : Rev :=
  { review_id := some (.str "b"), reviewer := some (.str ""),
    stars := some .null, date_local := some (.str "2024-03-05"),
    text := some (.str "y") }

/-- A Review cache entry with text but no rating key (claim C10 witness). -/
def c10entry : JSON := jobj [
  ("__typename", .str "Review"),
  ("text", jobj [("full", .str "nice")])]

/-! ### A sufficient well-typedness condition on documents

`wfEntry` restricts the fields a cache entry may carry to the shapes the
scripts expect (strings where strings are assumed, objects where objects
are dereferenced).  Under it neither extractor raises, every stored date
and review id is a string, and the whole run completes. -/

/-- A leaf the code reads as an optional string: absent, `null`, or a
string. -/
def wfLeaf : Option JSON → Bool
  | none => true
  | some .null => true
  | some (.str _) => true
  | some _ => false

def wfTextObj : Option JSON → Bool
  | none => true
  | some (.obj kvs) =>
    wfLeaf ((JSON.obj kvs).get? "full") && wfLeaf ((JSON.obj kvs).get? "plain")
  | some _ => false

def wfCreated : Option JSON → Bool
  | none => true
  | some (.obj kvs) => wfLeaf ((JSON.obj kvs).get? "localDateTimeForBusiness")
  | some _ => false

def wfAuthor : Option JSON → Bool
  | some (.obj kvs) =>
    (match List.lookup "__ref" (JObj.toList kvs) with
     | none => true
     | some (.str _) => true
     | some _ => false)
  | _ => true

def wfEntry (v : JSON) : Bool :=
  match v with
  | .obj _ =>
    if v.get? "__typename" = some (.str "Review") then
      wfTextObj (v.get? "text") && wfCreated (v.get? "createdAt") &&
      wfLeaf (v.get? "localizedDate") && wfLeaf (v.get? "encid") &&
      wfLeaf (v.get? "reviewId") && wfAuthor (v.get? "author")
    else if v.get? "__typename" = some (.str "User") then
      wfLeaf (v.get? "displayName")
    else true
  | _ => true

def wfScript (s : Script) : Bool :=
  match s.parsedUnesc with
  | some (.obj kvs) => (JObj.toList kvs).all (fun kv => wfEntry kv.2)
  | _ => true

/-- The JSON-LD side: `@type` must not be an unhashable list/dict. -/
def wfLd (s : Script) : Bool :=
  !s.isLd ||
    (match s.parsedRaw with
     | some (.obj kvs) =>
       (match (JSON.obj kvs).get? "@type" with
        | some (.arr _) => false
        | some (.obj _) => false
        | _ => true)
     | _ => true)

def wfDocS (d : Doc) : Bool := d.scripts.all wfScript

def wfDocP (d : Doc) : Bool := d.scripts.all wfScript && d.scripts.all wfLd

/-- A qualifying DOM card (star label, a paragraph) for the C6 witness. -/
def c6card : Card :=
  { ariaLabels := ["4,5 étoiles"], dateTexts := ["3 janvier 2024"],
    links := [("/user_details?userid=1", " Bob ")],
    paragraphs := ["  bonjour  tout le monde ", "hi"] }

/-- The record `dom_fallback_extract` produces from `c6card`. -/
def c6rec : Rev :=
  { review_id := some (.str ""), reviewer := some (.str "Bob"),
    stars := some (.str "4.5"), date_local := some (.str "3 janvier 2024"),
    text := some (.str "bonjour tout le monde") }

/-- The pre-attach form of `c2dup`. -/
def c2preDup : Rev :=
  { review_id := some (.str "abc"), author_ref := some (.str ""),
    stars := some .null, date_local := some (.str "2024"),
    text := some (.str "same") }

/-- Field shapes that make a record safe for dedupe and sort: a string
review id, a string (or still-unset) reviewer, and a string date. -/
def keyReady (r : Rev) : Prop :=
  (∃ i, r.review_id = some (.str i)) ∧
  (r.reviewer = none ∨ ∃ a, r.reviewer = some (.str a)) ∧
  (∃ s, r.date_local = some (.str s))

/-- A parsed JSON-LD block whose `@type` membership test cannot raise. -/
def wfBlock (d : JSON) : Bool :=
  match d with
  | .obj _ =>
    (match d.get? "@type" with
     | some (.arr _) => false
     | some (.obj _) => false
     | _ => true)
  | _ => true

/-- Field shapes of a record as both extractors emit it (before author
resolution): a string review id, a string author reference, and a string
date. -/
def preShape (r : Rev) : Prop :=
  (∃ i, r.review_id = some (.str i)) ∧
  (∃ a, r.author_ref = some (.str a)) ∧
  (∃ s, r.date_local = some (.str s))

/-! ## Lemmas about whitespace normalisation -/

theorem collapseWS_nil : collapseWS [] = [] := rfl

theorem collapseAux_nil (b : Bool) : collapseAux b [] = [] := rfl

theorem collapseAux_cons_ws_true (c : Char) (cs : List Char)
    (h : isWS c = true) : collapseAux true (c :: cs) = collapseAux true cs := by
  simp [collapseAux, h]

theorem collapseAux_cons_ws_false (c : Char) (cs : List Char)
    (h : isWS c = true) :
    collapseAux false (c :: cs) = ' ' :: collapseAux true cs := by
  simp [collapseAux, h]

theorem collapseAux_cons_nws (b : Bool) (c : Char) (cs : List Char)
    (h : isWS c = false) : collapseAux b (c :: cs) = c :: collapseAux false cs := by
  simp [collapseAux, h]

theorem head_dropWhile_ws (l : List Char) :
    ∀ c, ((l.dropWhile isWS).head? = some c) → isWS c = false := by
  induction l with
  | nil => simp
  | cons a as ih =>
    intro c h
    by_cases ha : isWS a
    · rw [List.dropWhile_cons_of_pos ha] at h
      exact ih c h
    · rw [List.dropWhile_cons_of_neg ha] at h
      simp only [List.head?_cons, Option.some.injEq] at h
      subst h
      simpa using ha

theorem getLast?_cons_ne (a : Char) (as : List Char) (h : as ≠ []) :
    (a :: as).getLast? = as.getLast? := by
  cases as with
  | nil => exact absurd rfl h
  | cons b bs => exact List.getLast?_cons_cons

theorem getLast?_some_of_ne (l : List Char) (h : l ≠ []) :
    ∃ c, l.getLast? = some c :=
  ⟨l.getLast h, List.getLast?_eq_getLast l h⟩

theorem dropTrail_getLast (l : List Char) :
    ∀ c, ((dropTrail l).getLast? = some c) → isWS c = false := by
  induction l with
  | nil => intro c h; simp [dropTrail] at h
  | cons a as ih =>
    intro c h
    rw [dropTrail] at h
    by_cases hrec : dropTrail as = []
    · rw [if_pos hrec] at h
      by_cases ha : isWS a
      · simp [ha] at h
      · rw [if_neg ha] at h
        simp only [List.getLast?_singleton, Option.some.injEq] at h
        subst h
        simpa using ha
    · rw [if_neg hrec, getLast?_cons_ne a _ hrec] at h
      exact ih c h

theorem dropTrail_head (l : List Char) :
    ∀ c, ((dropTrail l).head? = some c) → l.head? = some c := by
  cases l with
  | nil => intro c h; simp [dropTrail] at h
  | cons a as =>
    intro c h
    rw [dropTrail] at h
    by_cases hrec : dropTrail as = []
    · rw [if_pos hrec] at h
      by_cases ha : isWS a
      · simp [ha] at h
      · rw [if_neg ha] at h
        simp only [List.head?_cons, Option.some.injEq] at h
        simp [h]
    · rw [if_neg hrec] at h
      simp only [List.head?_cons, Option.some.injEq] at h
      simp [h]

theorem dropTrail_eq_self (l : List Char)
    (h : ∀ c, l.getLast? = some c → isWS c = false) : dropTrail l = l := by
  induction l with
  | nil => rfl
  | cons a as ih =>
    rw [dropTrail]
    cases as with
    | nil =>
      have hws := h a (by simp)
      simp [dropTrail, hws]
    | cons b bs =>
      have hne : (b :: bs) ≠ [] := by simp
      have hrec : dropTrail (b :: bs) = b :: bs := by
        apply ih
        intro c hc
        apply h
        rwa [getLast?_cons_ne a _ hne]
      rw [hrec, if_neg hne]

theorem pyStripL_head (l : List Char) :
    ∀ c, ((pyStripL l).head? = some c) → isWS c = false := by
  intro c h
  exact head_dropWhile_ws l c (dropTrail_head _ c h)

theorem pyStripL_getLast (l : List Char) :
    ∀ c, ((pyStripL l).getLast? = some c) → isWS c = false :=
  dropTrail_getLast _

theorem pyStripL_eq_self (l : List Char)
    (hh : ∀ c, l.head? = some c → isWS c = false)
    (hl : ∀ c, l.getLast? = some c → isWS c = false) : pyStripL l = l := by
  unfold pyStripL
  have hdw : l.dropWhile isWS = l := by
    cases l with
    | nil => rfl
    | cons a as =>
      have := hh a (by simp)
      rw [List.dropWhile_cons_of_neg (by simp [this])]
  rw [hdw]
  exact dropTrail_eq_self l hl

theorem collapseAux_false_nil_iff (l : List Char) :
    collapseAux false l = [] ↔ l = [] := by
  constructor
  · intro h
    cases l with
    | nil => rfl
    | cons c cs =>
      by_cases hc : isWS c
      · rw [collapseAux_cons_ws_false c cs hc] at h
        simp at h
      · rw [collapseAux_cons_nws false c cs (by simpa using hc)] at h
        simp at h
  · intro h
    subst h
    rfl

theorem collapseWS_eq_nil_iff (l : List Char) : collapseWS l = [] ↔ l = [] :=
  collapseAux_false_nil_iff l

theorem collapseAux_true_head (l : List Char) :
    ∀ c, ((collapseAux true l).head? = some c) → isWS c = false := by
  induction l with
  | nil => intro c h; simp [collapseAux_nil] at h
  | cons a as ih =>
    intro c h
    by_cases ha : isWS a
    · rw [collapseAux_cons_ws_true a as ha] at h
      exact ih c h
    · rw [collapseAux_cons_nws true a as (by simpa using ha)] at h
      simp only [List.head?_cons, Option.some.injEq] at h
      subst h
      simpa using ha

theorem collapseAux_true_ne_nil (l : List Char) (c : Char) (hc : c ∈ l)
    (hws : isWS c = false) : collapseAux true l ≠ [] := by
  induction l with
  | nil => simp at hc
  | cons a as ih =>
    by_cases ha : isWS a
    · rw [collapseAux_cons_ws_true a as ha]
      rcases List.mem_cons.1 hc with h1 | h1
      · subst h1
        rw [ha] at hws
        simp at hws
      · exact ih h1
    · rw [collapseAux_cons_nws true a as (by simpa using ha)]
      simp

theorem collapseWS_head_of (l : List Char) (c : Char)
    (h : l.head? = some c) (hc : isWS c = false) :
    (collapseWS l).head? = some c := by
  cases l with
  | nil => simp at h
  | cons a as =>
    simp only [List.head?_cons, Option.some.injEq] at h
    subst h
    show (collapseAux false (a :: as)).head? = some a
    rw [collapseAux_cons_nws false a as hc]
    rfl

theorem collapseAux_ws_space (b : Bool) (l : List Char) :
    ∀ c ∈ collapseAux b l, isWS c = true → c = ' ' := by
  induction l generalizing b with
  | nil => intro c hc; simp [collapseAux_nil] at hc
  | cons a as ih =>
    intro c hc hw
    by_cases ha : isWS a
    · cases b with
      | true =>
        rw [collapseAux_cons_ws_true a as ha] at hc
        exact ih true c hc hw
      | false =>
        rw [collapseAux_cons_ws_false a as ha] at hc
        rcases List.mem_cons.1 hc with h1 | h1
        · exact h1
        · exact ih true c h1 hw
    · rw [collapseAux_cons_nws b a as (by simpa using ha)] at hc
      rcases List.mem_cons.1 hc with h1 | h1
      · exact absurd (h1 ▸ hw) (by simpa using ha)
      · exact ih false c h1 hw

theorem collapseWS_ws_space (l : List Char) :
    ∀ c ∈ collapseWS l, isWS c = true → c = ' ' :=
  collapseAux_ws_space false l

theorem collapseAux_chain (b : Bool) (l : List Char) :
    (collapseAux b l).Chain' (fun a b => ¬(isWS a = true ∧ isWS b = true)) := by
  induction l generalizing b with
  | nil => simp [collapseAux_nil]
  | cons a as ih =>
    by_cases ha : isWS a
    · cases b with
      | true =>
        rw [collapseAux_cons_ws_true a as ha]
        exact ih true
      | false =>
        rw [collapseAux_cons_ws_false a as ha]
        apply List.Chain'.cons'
        · exact ih true
        · intro y hy hcon
          obtain ⟨_, hwy⟩ := hcon
          rw [Option.mem_def] at hy
          have hf := collapseAux_true_head as y hy
          rw [hf] at hwy
          cases hwy
    · rw [collapseAux_cons_nws b a as (by simpa using ha)]
      apply List.Chain'.cons'
      · exact ih false
      · intro y _ hcon
        obtain ⟨hwa, _⟩ := hcon
        exact absurd hwa (by simpa using ha)

theorem collapseWS_chain (l : List Char) :
    (collapseWS l).Chain' (fun a b => ¬(isWS a = true ∧ isWS b = true)) :=
  collapseAux_chain false l

theorem collapseAux_getLast (l : List Char) :
    ∀ b, (∀ c, l.getLast? = some c → isWS c = false) →
      ∀ c, ((collapseAux b l).getLast? = some c) → isWS c = false := by
  induction l with
  | nil => intro b _ c hc; simp [collapseAux_nil] at hc
  | cons a as ih =>
    intro b h c hc
    by_cases ha : isWS a
    · have has : as ≠ [] := by
        rintro rfl
        have hf := h a (by simp)
        rw [ha] at hf
        cases hf
      have hlast : ∀ d, as.getLast? = some d → isWS d = false := by
        intro d hd
        apply h
        rwa [getLast?_cons_ne a as has]
      cases b with
      | true =>
        rw [collapseAux_cons_ws_true a as ha] at hc
        exact ih true hlast c hc
      | false =>
        rw [collapseAux_cons_ws_false a as ha] at hc
        obtain ⟨e, he⟩ := getLast?_some_of_ne as has
        have hXne : collapseAux true as ≠ [] :=
          collapseAux_true_ne_nil as e (List.mem_of_mem_getLast? he) (hlast e he)
        rw [getLast?_cons_ne ' ' _ hXne] at hc
        exact ih true hlast c hc
    · rw [collapseAux_cons_nws b a as (by simpa using ha)] at hc
      cases as with
      | nil =>
        rw [collapseAux_nil] at hc
        simp only [List.getLast?_singleton, Option.some.injEq] at hc
        subst hc
        simpa using ha
      | cons a2 as2 =>
        have hasne : (a2 :: as2) ≠ [] := by simp
        have hlast : ∀ d, (a2 :: as2).getLast? = some d → isWS d = false := by
          intro d hd
          apply h
          rwa [getLast?_cons_ne a _ hasne]
        have hXne : collapseAux false (a2 :: as2) ≠ [] := by
          rw [ne_eq, collapseAux_false_nil_iff]
          simp
        rw [getLast?_cons_ne a _ hXne] at hc
        exact ih false hlast c hc

theorem collapseWS_getLast (l : List Char) :
    (∀ c, l.getLast? = some c → isWS c = false) →
    ∀ c, ((collapseWS l).getLast? = some c) → isWS c = false :=
  collapseAux_getLast l false

theorem collapseAux_true_eq_false (l : List Char)
    (h : ∀ c, l.head? = some c → isWS c = false) :
    collapseAux true l = collapseAux false l := by
  cases l with
  | nil => rfl
  | cons a as =>
    have hw := h a (by simp)
    rw [collapseAux_cons_nws true a as hw, collapseAux_cons_nws false a as hw]

theorem collapseAux_false_eq_self : ∀ (l : List Char),
    l.Chain' (fun a b => ¬(isWS a = true ∧ isWS b = true)) →
    (∀ c ∈ l, isWS c = true → c = ' ') → collapseAux false l = l := by
  intro l
  induction l with
  | nil => intro _ _; rfl
  | cons a as ih =>
    intro h1 h2
    by_cases ha : isWS a
    · have hsp : a = ' ' := h2 a (by simp) ha
      have hd : ∀ c, as.head? = some c → isWS c = false := by
        intro c hc
        cases as with
        | nil => simp at hc
        | cons b bs =>
          simp only [List.head?_cons, Option.some.injEq] at hc
          have hb := (List.chain'_cons.1 h1).1
          by_cases hcw : isWS c
          · rw [← hc] at hcw
            exact absurd ⟨ha, hcw⟩ hb
          · simpa using hcw
      rw [collapseAux_cons_ws_false a as ha, hsp,
        collapseAux_true_eq_false as hd,
        ih h1.tail (fun x hx => h2 x (List.mem_cons_of_mem _ hx))]
    · rw [collapseAux_cons_nws false a as (by simpa using ha),
        ih h1.tail (fun x hx => h2 x (List.mem_cons_of_mem _ hx))]

theorem collapseWS_eq_self (l : List Char)
    (h1 : l.Chain' (fun a b => ¬(isWS a = true ∧ isWS b = true)))
    (h2 : ∀ c ∈ l, isWS c = true → c = ' ') : collapseWS l = l :=
  collapseAux_false_eq_self l h1 h2

theorem norm_data (s : String) : (norm s).data = collapseWS (pyStripL s.data) :=
  rfl

theorem norm_head_not_ws (s : String) :
    ∀ c, ((norm s).data.head? = some c) → isWS c = false := by
  intro c h
  rw [norm_data] at h
  cases hstr : (pyStripL s.data).head? with
  | none =>
    rw [List.head?_eq_none_iff] at hstr
    rw [hstr, collapseWS_nil] at h
    simp at h
  | some d =>
    have hd := pyStripL_head s.data d hstr
    have := collapseWS_head_of _ d hstr hd
    rw [this] at h
    simp only [Option.some.injEq] at h
    subst h
    exact hd

theorem norm_last_not_ws (s : String) :
    ∀ c, ((norm s).data.getLast? = some c) → isWS c = false := by
  intro c h
  rw [norm_data] at h
  exact collapseWS_getLast _ (pyStripL_getLast s.data) c h

theorem norm_chain (s : String) :
    (norm s).data.Chain' (fun a b => ¬(isWS a = true ∧ isWS b = true)) := by
  rw [norm_data]
  exact collapseWS_chain _

theorem norm_ws_space (s : String) :
    ∀ c ∈ (norm s).data, isWS c = true → c = ' ' := by
  rw [norm_data]
  exact collapseWS_ws_space _

theorem norm_idem (s : String) : norm (norm s) = norm s := by
  have h1 : pyStripL (norm s).data = (norm s).data :=
    pyStripL_eq_self _ (norm_head_not_ws s) (norm_last_not_ws s)
  have h2 : collapseWS (norm s).data = (norm s).data :=
    collapseWS_eq_self _ (norm_chain s) (norm_ws_space s)
  show String.mk (collapseWS (pyStripL (norm s).data)) = norm s
  rw [h1, h2]

theorem norm_eq_empty_iff (s : String) : norm s = "" ↔ pyStripL s.data = [] := by
  constructor
  · intro h
    have : (norm s).data = [] := by rw [h]
    rw [norm_data] at this
    exact (collapseWS_eq_nil_iff _).1 this
  · intro h
    show String.mk (collapseWS (pyStripL s.data)) = ""
    rw [h, collapseWS_nil]

/-! ## Lemmas about the embedded-JSON extractors -/

theorem except_bind_ok {α β : Type} (a : α) (f : α → Except Unit β) :
    (Except.ok a >>= f) = f a := rfl

theorem except_bind_error {α β : Type} (f : α → Except Unit β) :
    ((Except.error () : Except Unit α) >>= f) = .error () := rfl

theorem mkRev_good (rid : JSON) (aref : String) (rating : Option JSON)
    (dl : JSON) (s : String) (hs : norm s ≠ "") :
    goodText (mkRev rid aref rating dl s) :=
  ⟨norm s, rfl, hs, norm_idem s⟩

theorem reviewBodyS_rev (k : String) (v : JSON) (r : Rev)
    (h : reviewBodyS k v = .ok (.rev r)) :
    goodText r ∧ ∃ a, r.author_ref = some (.str a) := by
  unfold reviewBodyS at h
  cases htx : textOf v with
  | error e => rw [htx, except_bind_error] at h; simp at h
  | ok s =>
    rw [htx, except_bind_ok] at h
    by_cases hs : pyStripL s.data = []
    · rw [if_pos hs] at h; simp at h
    · rw [if_neg hs] at h
      cases hdl : dateOf v with
      | error e => rw [hdl, except_bind_error] at h; simp at h
      | ok dl =>
        rw [hdl, except_bind_ok] at h
        cases har : authorRefOf v with
        | error e => rw [har, except_bind_error] at h; simp at h
        | ok aref =>
          rw [har, except_bind_ok] at h
          simp only [Except.ok.injEq, EAct.rev.injEq] at h
          subst h
          refine ⟨mkRev_good _ _ _ _ _ ?_, aref, rfl⟩
          rw [ne_eq, norm_eq_empty_iff]
          exact hs

theorem reviewBodyP_rev (k : String) (v : JSON) (r : Rev)
    (h : reviewBodyP k v = .ok (.rev r)) :
    goodText r ∧ ∃ a, r.author_ref = some (.str a) := by
  unfold reviewBodyP at h
  cases htx : textOf v with
  | error e => rw [htx, except_bind_error] at h; simp at h
  | ok s =>
    rw [htx, except_bind_ok] at h
    cases hdl : dateOf v with
    | error e => rw [hdl, except_bind_error] at h; simp at h
    | ok dl =>
      rw [hdl, except_bind_ok] at h
      cases har : authorRefOf v with
      | error e => rw [har, except_bind_error] at h; simp at h
      | ok aref =>
        rw [har, except_bind_ok] at h
        by_cases hs : norm s = ""
        · rw [if_pos hs] at h; simp at h
        · rw [if_neg hs] at h
          simp only [Except.ok.injEq, EAct.rev.injEq] at h
          subst h
          exact ⟨mkRev_good _ _ _ _ _ hs, aref, rfl⟩

theorem userAct_no_rev (uesc : String → String) (k : String) (v : JSON)
    (r : Rev) : userAct uesc k v ≠ .ok (.rev r) := by
  intro h
  unfold userAct at h
  cases hdb : displayBase v with
  | error e => rw [hdb, except_bind_error] at h; simp at h
  | ok base =>
    rw [hdb, except_bind_ok] at h
    by_cases hc : splitColonTail k ≠ "" ∧ uesc base ≠ ""
    · rw [if_pos hc] at h; simp at h
    · rw [if_neg hc] at h; simp at h

theorem entryActS_rev (uesc : String → String) (k : String) (v : JSON)
    (r : Rev) (h : entryActS uesc k v = .ok (.rev r)) :
    goodText r ∧ ∃ a, r.author_ref = some (.str a) := by
  cases v with
  | obj kvs =>
    rw [entryActS] at h
    by_cases h1 : (JSON.obj kvs).get? "__typename" = some (.str "Review")
    · rw [if_pos h1] at h
      exact reviewBodyS_rev _ _ _ h
    · rw [if_neg h1] at h
      by_cases h2 : (JSON.obj kvs).get? "__typename" = some (.str "User")
      · rw [if_pos h2] at h
        exact absurd h (userAct_no_rev _ _ _ _)
      · rw [if_neg h2] at h; simp at h
  | null => simp [entryActS] at h
  | bool b => simp [entryActS] at h
  | num n => simp [entryActS] at h
  | str s => simp [entryActS] at h
  | arr xs => simp [entryActS] at h

theorem entryActP_rev (uesc : String → String) (k : String) (v : JSON)
    (r : Rev) (h : entryActP uesc k v = .ok (.rev r)) :
    goodText r ∧ ∃ a, r.author_ref = some (.str a) := by
  cases v with
  | obj kvs =>
    rw [entryActP] at h
    by_cases h1 : (JSON.obj kvs).get? "__typename" = some (.str "Review")
    · rw [if_pos h1] at h
      exact reviewBodyP_rev _ _ _ h
    · rw [if_neg h1] at h
      by_cases h2 : (JSON.obj kvs).get? "__typename" = some (.str "User")
      · rw [if_pos h2] at h
        exact absurd h (userAct_no_rev _ _ _ _)
      · rw [if_neg h2] at h; simp at h
  | null => simp [entryActP] at h
  | bool b => simp [entryActP] at h
  | num n => simp [entryActP] at h
  | str s => simp [entryActP] at h
  | arr xs => simp [entryActP] at h

/-- Every review collected by `entriesOf` satisfies any property enjoyed by
the records its `act` emits. -/
theorem entriesOf_mem (act : String → JSON → Except Unit EAct)
    (P : Rev → Prop)
    (hact : ∀ k v r, act k v = .ok (.rev r) → P r) :
    ∀ (kvs : List (String × JSON)) (us revs users'),
      entriesOf act kvs us = .ok (revs, users') → ∀ r ∈ revs, P r := by
  intro kvs
  induction kvs with
  | nil =>
    intro us revs users' h r hr
    rw [entriesOf] at h
    simp only [Except.ok.injEq, Prod.mk.injEq] at h
    obtain ⟨h1, _⟩ := h
    subst h1
    simp at hr
  | cons kv rest ih =>
    obtain ⟨k, v⟩ := kv
    intro us revs users' h r hr
    rw [entriesOf] at h
    cases ha : act k v with
    | error e => rw [ha, except_bind_error] at h; simp at h
    | ok a =>
      rw [ha, except_bind_ok] at h
      cases a with
      | skip => exact ih us revs users' h r hr
      | user uid nm => exact ih _ revs users' h r hr
      | rev r0 =>
        dsimp only at h
        cases hrec : entriesOf act rest us with
        | error e => rw [hrec, except_bind_error] at h; simp at h
        | ok p =>
          obtain ⟨l, us1⟩ := p
          rw [hrec, except_bind_ok] at h
          simp only [Except.ok.injEq, Prod.mk.injEq] at h
          obtain ⟨h1, _⟩ := h
          subst h1
          rcases List.mem_cons.1 hr with h2 | h2
          · subst h2
            exact hact k v r ha
          · exact ih us l us1 hrec r h2

/-- Lift `entriesOf_mem` over all script blocks. -/
theorem scriptsRevs_mem (act : String → JSON → Except Unit EAct)
    (P : Rev → Prop)
    (hact : ∀ k v r, act k v = .ok (.rev r) → P r) :
    ∀ (ss : List Script) (us revs users'),
      scriptsRevs act ss us = .ok (revs, users') → ∀ r ∈ revs, P r := by
  intro ss
  induction ss with
  | nil =>
    intro us revs users' h r hr
    rw [scriptsRevs] at h
    simp only [Except.ok.injEq, Prod.mk.injEq] at h
    obtain ⟨h1, _⟩ := h
    subst h1
    simp at hr
  | cons s rest ih =>
    intro us revs users' h r hr
    rw [scriptsRevs] at h
    cases hpu : s.parsedUnesc with
    | none => rw [hpu] at h; exact ih us revs users' h r hr
    | some j =>
      rw [hpu] at h
      cases j with
      | obj kvs =>
        dsimp only at h
        cases he : entriesOf act (JObj.toList kvs) us with
        | error e => rw [he, except_bind_error] at h; simp at h
        | ok p1 =>
          obtain ⟨l1, us1⟩ := p1
          rw [he, except_bind_ok] at h
          dsimp only at h
          cases hsc : scriptsRevs act rest us1 with
          | error e => rw [hsc, except_bind_error] at h; simp at h
          | ok p2 =>
            obtain ⟨l2, us2⟩ := p2
            rw [hsc, except_bind_ok] at h
            simp only [Except.ok.injEq, Prod.mk.injEq] at h
            obtain ⟨h1, _⟩ := h
            subst h1
            rcases List.mem_append.1 hr with h2 | h2
            · exact entriesOf_mem act P hact _ us l1 us1 he r h2
            · exact ih us1 l2 us2 hsc r h2
      | null => exact ih us revs users' h r hr
      | bool b => exact ih us revs users' h r hr
      | num n => exact ih us revs users' h r hr
      | str s2 => exact ih us revs users' h r hr
      | arr xs => exact ih us revs users' h r hr

/-! ## The sort relation: totality and transitivity -/

theorem leChars_cons (a b : Char) (as bs : List Char) :
    leChars (a :: as) (b :: bs) =
      if a < b then true else if a = b then leChars as bs else false := rfl

theorem leChars_total : ∀ x y : List Char, leChars x y = true ∨ leChars y x = true
  | [], _ => .inl rfl
  | _ :: _, [] => .inr rfl
  | a :: as, b :: bs => by
    rcases lt_trichotomy a b with h | h | h
    · left
      rw [leChars_cons, if_pos h]
    · subst h
      rcases leChars_total as bs with ih | ih
      · left
        rw [leChars_cons, if_neg (lt_irrefl a), if_pos rfl]
        exact ih
      · right
        rw [leChars_cons, if_neg (lt_irrefl a), if_pos rfl]
        exact ih
    · right
      rw [leChars_cons, if_pos h]

theorem leChars_trans : ∀ x y z : List Char,
    leChars x y = true → leChars y z = true → leChars x z = true
  | [], _, _, _, _ => rfl
  | _ :: _, [], _, h1, _ => by cases h1
  | _ :: _, _ :: _, [], _, h2 => by cases h2
  | a :: as, b :: bs, c :: cs, h1, h2 => by
    rw [leChars_cons] at h1 h2 ⊢
    by_cases hab : a < b
    · by_cases hbc : b < c
      · rw [if_pos (lt_trans hab hbc)]
      · by_cases hbc2 : b = c
        · subst hbc2
          rw [if_pos hab]
        · rw [if_neg hbc, if_neg hbc2] at h2
          cases h2
    · by_cases hab2 : a = b
      · subst hab2
        rw [if_neg hab, if_pos rfl] at h1
        by_cases hac : a < c
        · rw [if_pos hac]
        · by_cases hac2 : a = c
          · subst hac2
            rw [if_neg hac, if_pos rfl] at h2 ⊢
            exact leChars_trans as bs cs h1 h2
          · rw [if_neg hac, if_neg hac2] at h2
            cases h2
      · rw [if_neg hab, if_neg hab2] at h1
        cases h1

instance : IsTotal Rev dateGE :=
  ⟨fun a b => leChars_total (dateKey b).data (dateKey a).data⟩

instance : IsTrans Rev dateGE :=
  ⟨fun _ _ _ h1 h2 =>
    leChars_trans _ _ _ h2 h1⟩

/-! ## Lemmas about author resolution, dedupe and sort -/

theorem mem_scraperAttach_text (revs : List Rev) (users : List (String × String))
    (r : Rev) (hr : r ∈ scraperAttach revs users) :
    ∃ r0 ∈ revs, r.text = r0.text := by
  rw [scraperAttach, List.mem_map] at hr
  obtain ⟨r0, hr0, rfl⟩ := hr
  refine ⟨r0, hr0, ?_⟩
  cases h0 : r0.author_ref <;> simp [h0]

theorem mem_parseAttach_text (revs : List Rev) (users : List (String × String))
    (r : Rev) (hr : r ∈ parseAttach revs users) :
    ∃ r0 ∈ revs, r.text = r0.text := by
  rw [parseAttach, List.mem_map] at hr
  obtain ⟨r0, hr0, rfl⟩ := hr
  exact ⟨r0, hr0, rfl⟩

theorem dedupeAux_subset :
    ∀ (seen : List JSON) (l out : List Rev), dedupeAux seen l = .ok out →
      ∀ r ∈ out, r ∈ l := by
  intro seen l
  induction l generalizing seen with
  | nil =>
    intro out h r hr
    rw [dedupeAux] at h
    simp only [Except.ok.injEq] at h
    subst h
    simp at hr
  | cons x xs ih =>
    intro out h r hr
    rw [dedupeAux] at h
    by_cases ht : truthyO x.text
    · rw [if_pos ht] at h
      cases hk : keyOf x with
      | error e => rw [hk, except_bind_error] at h; simp at h
      | ok k =>
        rw [hk, except_bind_ok] at h
        by_cases hseen : seen.contains k
        · rw [if_pos hseen] at h
          exact List.mem_cons_of_mem _ (ih seen out h r hr)
        · rw [if_neg hseen] at h
          cases hrec : dedupeAux (k :: seen) xs with
          | error e => rw [hrec, except_bind_error] at h; simp at h
          | ok rest =>
            rw [hrec, except_bind_ok] at h
            simp only [Except.ok.injEq] at h
            subst h
            rcases List.mem_cons.1 hr with h2 | h2
            · subst h2; exact List.mem_cons_self _ _
            · exact List.mem_cons_of_mem _ (ih _ rest hrec r h2)
    · rw [if_neg ht] at h
      exact List.mem_cons_of_mem _ (ih seen out h r hr)

theorem sortRevs_perm (l out : List Rev) (h : sortRevs l = .ok out) :
    out.Perm l := by
  unfold sortRevs at h
  by_cases hd : datesOK l
  · rw [if_pos hd] at h
    simp only [Except.ok.injEq] at h
    subst h
    exact List.perm_insertionSort dateGE l
  · rw [if_neg hd] at h
    cases h

theorem dedupeAndSort_subset (l out : List Rev) (h : dedupeAndSort l = .ok out) :
    ∀ r ∈ out, r ∈ l := by
  unfold dedupeAndSort at h
  cases hdd : dedupeAux [] l with
  | error e => rw [hdd, except_bind_error] at h; simp at h
  | ok d =>
    rw [hdd, except_bind_ok] at h
    intro r hr
    exact dedupeAux_subset [] l d hdd r ((sortRevs_perm d out h).mem_iff.1 hr)

/-- Every record produced by either extractor (under success) has good text
and a string author reference. -/
theorem scraperExtract_good (uesc : String → String) (scripts : List Script)
    (revs : List Rev) (users : List (String × String))
    (h : scraperExtract uesc scripts = .ok (revs, users)) :
    ∀ r ∈ revs, goodText r ∧ ∃ a, r.author_ref = some (.str a) :=
  scriptsRevs_mem (entryActS uesc) _ (fun k v r hkv => entryActS_rev uesc k v r hkv)
    scripts [] revs users h

theorem parseExtract_good (uesc : String → String) (scripts : List Script)
    (revs : List Rev) (users : List (String × String))
    (h : parseExtract uesc scripts = .ok (revs, users)) :
    ∀ r ∈ revs, goodText r ∧ ∃ a, r.author_ref = some (.str a) :=
  scriptsRevs_mem (entryActP uesc) _ (fun k v r hkv => entryActP_rev uesc k v r hkv)
    scripts [] revs users h

theorem scraperFiles_good (uesc : String → String) :
    ∀ (files : List Doc) (all : List Rev),
      scraperFiles uesc files = .ok all → ∀ r ∈ all, goodText r := by
  intro files
  induction files with
  | nil =>
    intro all h r hr
    rw [scraperFiles] at h
    simp only [Except.ok.injEq] at h
    subst h
    simp at hr
  | cons d rest ih =>
    intro all h r hr
    rw [scraperFiles] at h
    cases hex : scraperExtract uesc d.scripts with
    | error e => rw [hex, except_bind_error] at h; simp at h
    | ok p =>
      obtain ⟨revs, users⟩ := p
      rw [hex, except_bind_ok] at h
      dsimp only at h
      cases hrec : scraperFiles uesc rest with
      | error e => rw [hrec, except_bind_error] at h; simp at h
      | ok more =>
        rw [hrec, except_bind_ok] at h
        simp only [Except.ok.injEq] at h
        subst h
        rcases List.mem_append.1 hr with h2 | h2
        · obtain ⟨r0, hr0, htext⟩ := mem_scraperAttach_text revs users r h2
          obtain ⟨⟨t, ht, hne, hnorm⟩, _⟩ := scraperExtract_good uesc d.scripts revs users hex r0 hr0
          exact ⟨t, htext.trans ht, hne, hnorm⟩
        · exact ih more hrec r h2

theorem maxByLen_mem : ∀ (l : List String), l ≠ [] → maxByLen l ∈ l := by
  intro l hl
  cases l with
  | nil => exact absurd rfl hl
  | cons x xs =>
    rw [maxByLen]
    clear hl
    induction xs generalizing x with
    | nil => simp
    | cons y ys ih =>
      rw [List.foldl_cons]
      by_cases hxy : y.length > x.length
      · rw [if_pos hxy]
        rcases List.mem_cons.1 (ih y) with h | h
        · rw [h]
          exact List.mem_cons_of_mem _ (List.mem_cons_self _ _)
        · exact List.mem_cons_of_mem _ (List.mem_cons_of_mem _ h)
      · rw [if_neg hxy]
        rcases List.mem_cons.1 (ih x) with h | h
        · rw [h]
          exact List.mem_cons_self _ _
        · exact List.mem_cons_of_mem _ (List.mem_cons_of_mem _ h)

theorem domFallback_good (cards : List Card) :
    ∀ r ∈ domFallback cards, goodText r := by
  intro r hr
  rw [domFallback, List.mem_filterMap] at hr
  obtain ⟨t, _, ht⟩ := hr
  by_cases hq : looksLikeCard t
  · rw [if_pos hq] at ht
    set ps := (t.paragraphs.map norm).filter (fun p => p ≠ "") with hps
    by_cases htx : maxByLen ps = ""
    · rw [if_pos htx] at ht; cases ht
    · rw [if_neg htx] at ht
      simp only [Option.some.injEq] at ht
      subst ht
      refine ⟨maxByLen ps, rfl, htx, ?_⟩
      have hne : ps ≠ [] := by
        intro hnil
        rw [hnil] at htx
        exact htx rfl
      have hmem := maxByLen_mem ps hne
      rw [hps, List.mem_filter, List.mem_map] at hmem
      obtain ⟨⟨p0, _, hp0⟩, _⟩ := hmem
      rw [← hp0, norm_idem]
  · rw [if_neg hq] at ht
    cases ht

/-! ## Inversion of the two mains -/

theorem scraperMain_ok (uesc : String → String) (defaults : List (Option Doc))
    (pages : List Doc) (o : SOut) (h : scraperMain uesc defaults pages = .ok o) :
    ∃ all, scraperFiles uesc (defaults.filterMap id ++ pages) = .ok all ∧
      dedupeAndSort all = .ok o.reviews ∧ o.count = o.reviews.length := by
  unfold scraperMain at h
  by_cases hf : (defaults.filterMap id ++ pages).isEmpty
  · rw [if_pos hf] at h
    cases h
  · rw [if_neg hf] at h
    cases hsf : scraperFiles uesc (defaults.filterMap id ++ pages) with
    | error e =>
      rw [hsf, except_bind_error] at h
      cases h
    | ok all =>
      rw [hsf, except_bind_ok] at h
      cases hds : dedupeAndSort all with
      | error e =>
        rw [hds] at h
        cases h
      | ok final =>
        rw [hds] at h
        simp only [Except.ok.injEq] at h
        subst h
        exact ⟨all, rfl, hds, rfl⟩

theorem parseBody_ok (uesc : String → String) (d : Doc) (biz : Biz)
    (final : List Rev) (h : parseBody uesc d = .ok (biz, final)) :
    ∃ revs users, parseExtract uesc d.scripts = .ok (revs, users) ∧
      extractBusinessInfo d.scripts d.heading = .ok biz ∧
      sortRevs (if (parseAttach revs users).isEmpty then domFallback d.cards
                else parseAttach revs users) = .ok final := by
  unfold parseBody at h
  cases hex : parseExtract uesc d.scripts with
  | error e =>
    rw [hex, except_bind_error] at h
    cases h
  | ok p =>
    obtain ⟨revs, users⟩ := p
    rw [hex, except_bind_ok] at h
    dsimp only at h
    cases hbi : extractBusinessInfo d.scripts d.heading with
    | error e =>
      rw [hbi, except_bind_error] at h
      cases h
    | ok biz2 =>
      rw [hbi, except_bind_ok] at h
      cases hso : sortRevs (if (parseAttach revs users).isEmpty
          then domFallback d.cards else parseAttach revs users) with
      | error e =>
        rw [hso, except_bind_error] at h
        cases h
      | ok final2 =>
        rw [hso, except_bind_ok] at h
        simp only [Except.ok.injEq, Prod.mk.injEq] at h
        obtain ⟨h1, h2⟩ := h
        subst h1
        subst h2
        exact ⟨revs, users, rfl, rfl, hso⟩

theorem parseMain_ok (uesc : String → String) (input : Option Doc) (o : POut)
    (h : parseMain uesc input = .ok o) :
    ∃ d, input = some d ∧ parseBody uesc d = .ok (o.business, o.reviews) ∧
      o.count = o.reviews.length := by
  cases input with
  | none => simp [parseMain] at h
  | some d =>
    rw [parseMain] at h
    cases hb : parseBody uesc d with
    | error e =>
      rw [hb] at h
      cases h
    | ok p =>
      obtain ⟨biz, final⟩ := p
      rw [hb] at h
      simp only [Except.ok.injEq] at h
      subst h
      exact ⟨d, rfl, hb, rfl⟩

/-! ## Claim theorems -/

/-- Claim C9: the whitespace-normalisation function `norm` is idempotent,
and its result never contains two consecutive whitespace characters nor a
leading or trailing whitespace character. -/
theorem c9_norm_idempotent (s : String) :
    norm (norm s) = norm s ∧
    (norm s).data.Chain' (fun a b => ¬(isWS a = true ∧ isWS b = true)) ∧
    (∀ c, (norm s).data.head? = some c → isWS c = false) ∧
    (∀ c, (norm s).data.getLast? = some c → isWS c = false) :=
  ⟨norm_idem s, norm_chain s, norm_head_not_ws s, norm_last_not_ws s⟩

/-- Claim C1: for every run of either pipeline that completes, every review
record in the final output has non-empty text after whitespace
normalisation: the `text` field is a string `t` with `t ≠ ""` and
`norm t = t` (so its normalisation is `t` itself, non-empty); no record
with empty or all-whitespace text appears in either output. -/
theorem c1_output_text_nonempty (uesc : String → String)
    (defaults : List (Option Doc)) (pages : List Doc) (input : Option Doc)
    (o1 : SOut) (o2 : POut)
    (h1 : scraperMain uesc defaults pages = .ok o1)
    (h2 : parseMain uesc input = .ok o2) :
    (∀ r ∈ o1.reviews, goodText r) ∧ (∀ r ∈ o2.reviews, goodText r) := by
  constructor
  · obtain ⟨all, hsf, hds, _⟩ := scraperMain_ok uesc defaults pages o1 h1
    intro r hr
    exact scraperFiles_good uesc _ all hsf r
      (dedupeAndSort_subset all o1.reviews hds r hr)
  · obtain ⟨d, _, hb, _⟩ := parseMain_ok uesc input o2 h2
    obtain ⟨revs, users, hex, _, hso⟩ := parseBody_ok uesc d _ _ hb
    intro r hr
    have hr2 := (sortRevs_perm _ _ hso).mem_iff.1 hr
    by_cases he : (parseAttach revs users).isEmpty
    · rw [if_pos he] at hr2
      exact domFallback_good d.cards r hr2
    · rw [if_neg he] at hr2
      obtain ⟨r0, hr0, htext⟩ := mem_parseAttach_text revs users r hr2
      obtain ⟨⟨t, ht, hne, hnorm⟩, _⟩ :=
        parseExtract_good uesc d.scripts revs users hex r0 hr0
      exact ⟨t, htext.trans ht, hne, hnorm⟩

/-- Witness for C1: both pipelines run on the concrete document `c4doc` and
every output record indeed has non-empty normalised text. -/
theorem c1_output_text_nonempty_witness :
    (∀ r ∈ (SOut.mk 1 [c4rev]).reviews, goodText r) ∧
    (∀ r ∈ (POut.mk {} 1 [c4rev]).reviews, goodText r) :=
  c1_output_text_nonempty id [some c4doc] [] (some c4doc)
    (SOut.mk 1 [c4rev]) (POut.mk {} 1 [c4rev]) (by decide) (by decide)

theorem parseAttach_isEmpty (revs : List Rev) (users : List (String × String)) :
    (parseAttach revs users).isEmpty = revs.isEmpty := by
  cases revs <;> rfl

/-- Claim C4: the script block holding the `Review:abc`/`User:42` cache
yields, after author resolution, exactly one record
`{review_id: "abc", reviewer: "Alex", stars: 5, date_local: "2024-01-02",
text: "Great food!"}`, with the author reference field removed — in both
scripts' extractors.  (`html.unescape` is the identity on these entity-free
strings, so it is instantiated with `id`.) -/
theorem c4_scenario :
    parseExtract id c4doc.scripts = .ok ([c4pre], [("42", "Alex")]) ∧
    parseAttach [c4pre] [("42", "Alex")] = [c4rev] ∧
    scraperExtract id c4doc.scripts = .ok ([c4pre], [("42", "Alex")]) ∧
    scraperAttach [c4pre] [("42", "Alex")] = [c4rev] ∧
    c4rev.review_id = some (.str "abc") ∧ c4rev.reviewer = some (.str "Alex") ∧
    c4rev.stars = some (.num 5) ∧ c4rev.date_local = some (.str "2024-01-02") ∧
    c4rev.text = some (.str "Great food!") ∧ c4rev.author_ref = none := by
  decide

/-- Claim C10: a cache entry with discriminator `"Review"`, non-empty
normalised text and no `"rating"` key is still emitted by both extractors,
with `stars` set to `null` (Python `None`, serialised as JSON `null`); the
absence of a rating never drops the record. -/
theorem c10_missing_rating (uesc : String → String) (k : String) (v : JSON)
    (s : String) (dl : JSON) (aref : String)
    (hty : v.get? "__typename" = some (.str "Review"))
    (hrat : v.get? "rating" = none)
    (htext : textOf v = .ok s) (hs : norm s ≠ "")
    (hdl : dateOf v = .ok dl) (har : authorRefOf v = .ok aref) :
    entryActS uesc k v = .ok (.rev (mkRev (ridOf k v) aref none dl s)) ∧
    entryActP uesc k v = .ok (.rev (mkRev (ridOf k v) aref none dl s)) ∧
    (mkRev (ridOf k v) aref none dl s).stars = some .null := by
  obtain ⟨kvs, rfl⟩ : ∃ kvs, v = .obj kvs := by
    cases v with
    | obj kvs => exact ⟨kvs, rfl⟩
    | null => simp [JSON.get?] at hty
    | bool b => simp [JSON.get?] at hty
    | num n => simp [JSON.get?] at hty
    | str s2 => simp [JSON.get?] at hty
    | arr xs => simp [JSON.get?] at hty
  have hstrip : ¬ pyStripL s.data = [] := fun hh => hs ((norm_eq_empty_iff s).2 hh)
  refine ⟨?_, ?_, rfl⟩
  · rw [entryActS, if_pos hty]
    unfold reviewBodyS
    rw [htext, except_bind_ok, if_neg hstrip, hdl, except_bind_ok, har,
      except_bind_ok, hrat]
  · rw [entryActP, if_pos hty]
    unfold reviewBodyP
    rw [htext, except_bind_ok, hdl, except_bind_ok, har, except_bind_ok,
      if_neg hs, hrat]

/-- Witness for C10 at a concrete rating-less entry. -/
theorem c10_missing_rating_witness :
    entryActS id "Review:z" c10entry =
      .ok (.rev (mkRev (ridOf "Review:z" c10entry) "" none (.str "") "nice")) ∧
    entryActP id "Review:z" c10entry =
      .ok (.rev (mkRev (ridOf "Review:z" c10entry) "" none (.str "") "nice")) ∧
    (mkRev (ridOf "Review:z" c10entry) "" none (.str "") "nice").stars =
      some .null :=
  c10_missing_rating id "Review:z" c10entry "nice" (.str "") ""
    (by decide) (by decide) (by decide) (by decide) (by decide) (by decide)

/-- Claim C6: the DOM fallback contributes exactly when the embedded
extractor yields zero records: with at least one embedded record the whole
run is independent of the DOM cards, and with zero embedded records the
output review list is the (sorted) DOM-fallback result. -/
theorem c6_fallback_gating (uesc : String → String) (scripts : List Script)
    (cards cards' : List Card) (heading : Option String)
    (revs : List Rev) (users : List (String × String))
    (hex : parseExtract uesc scripts = .ok (revs, users)) :
    (revs ≠ [] → parseMain uesc (some ⟨scripts, cards, heading⟩) =
      parseMain uesc (some ⟨scripts, cards', heading⟩)) ∧
    (revs = [] → ∀ o, parseMain uesc (some ⟨scripts, cards, heading⟩) = .ok o →
      sortRevs (domFallback cards) = .ok o.reviews) := by
  constructor
  · intro hne
    have hAe : (parseAttach revs users).isEmpty = false := by
      rw [parseAttach_isEmpty]
      cases revs with
      | nil => exact absurd rfl hne
      | cons a as => rfl
    unfold parseMain parseBody
    dsimp only
    rw [hex]
    simp only [except_bind_ok]
    rw [hAe]
    simp
  · intro hnil o ho
    obtain ⟨d, hd, hb, _⟩ := parseMain_ok uesc _ o ho
    have hd2 : d = ⟨scripts, cards, heading⟩ := (Option.some.inj hd).symm
    subst hd2
    obtain ⟨revs2, users2, hex2, _, hso⟩ := parseBody_ok uesc _ _ _ hb
    dsimp only at hex2 hso
    rw [hex] at hex2
    have h1 : revs = revs2 ∧ users = users2 := by
      have := Except.ok.inj hex2
      exact ⟨congrArg Prod.fst this, congrArg Prod.snd this⟩
    obtain ⟨h1a, h1b⟩ := h1
    subst h1a
    subst h1b
    subst hnil
    have hemp : (parseAttach ([] : List Rev) users).isEmpty = true := rfl
    rw [if_pos hemp] at hso
    exact hso

/-- Witness for C6: with a non-empty embedded extraction the run ignores
the DOM card entirely; with an empty one the output is the sorted fallback
result. -/
theorem c6_fallback_gating_witness :
    parseMain id (some ⟨c4doc.scripts, [], none⟩) =
      parseMain id (some ⟨c4doc.scripts, [c6card], none⟩) ∧
    sortRevs (domFallback [c6card]) = .ok (POut.mk {} 1 [c6rec]).reviews :=
  ⟨(c6_fallback_gating id c4doc.scripts [] [c6card] none [c4pre]
      [("42", "Alex")] (by decide)).1 (by decide),
   (c6_fallback_gating id [] [c6card] [c6card] none [] []
      (by decide)).2 rfl (POut.mk {} 1 [c6rec]) (by decide)⟩

theorem sortRevs_sorted (l out : List Rev) (h : sortRevs l = .ok out) :
    List.Sorted dateGE out := by
  unfold sortRevs at h
  by_cases hd : datesOK l
  · rw [if_pos hd] at h
    simp only [Except.ok.injEq] at h
    subst h
    exact List.sorted_insertionSort dateGE l
  · rw [if_neg hd] at h
    cases h

theorem dedupeAndSort_sorted (l out : List Rev)
    (h : dedupeAndSort l = .ok out) : List.Sorted dateGE out := by
  unfold dedupeAndSort at h
  cases hdd : dedupeAux [] l with
  | error e =>
    rw [hdd, except_bind_error] at h
    cases h
  | ok d =>
    rw [hdd, except_bind_ok] at h
    exact sortRevs_sorted d out h

/-- Counterexample to claim C3 as stated: two distinct records with equal
`date_local` both survive dedupe and appear adjacent in the output, so the
output is *not* strictly descending (the first key is not lexicographically
greater than the second — they are equal). -/
theorem c3_counterexample :
    dedupeAndSort [c3r1, c3r2] = .ok [c3r1, c3r2] ∧
    c3r1 ≠ c3r2 ∧ dateKey c3r1 = dateKey c3r2 ∧
    ¬ (leChars (dateKey c3r2).data (dateKey c3r1).data = true ∧
       dateKey c3r1 ≠ dateKey c3r2) := by
  decide

/-- Claim C3 (amended): the final ordering of both pipelines is descending
(non-increasing, ties allowed and kept stable) lexicographic order on the
raw `date_local` string — `dateGE a b` says the raw date string of `b` is
codepoint-lexicographically ≤ that of `a`, a record without the field
sorting as the empty string (`dateKey`); no date parsing is involved. -/
theorem c3_amended_descending (uesc : String → String) :
    (∀ defaults pages o, scraperMain uesc defaults pages = .ok o →
      List.Sorted dateGE o.reviews) ∧
    (∀ input o, parseMain uesc input = .ok o →
      List.Sorted dateGE o.reviews) := by
  constructor
  · intro defaults pages o h
    obtain ⟨all, _, hds, _⟩ := scraperMain_ok uesc defaults pages o h
    exact dedupeAndSort_sorted all o.reviews hds
  · intro input o h
    obtain ⟨d, _, hb, _⟩ := parseMain_ok uesc input o h
    obtain ⟨revs, users, _, _, hso⟩ := parseBody_ok uesc d _ _ hb
    exact sortRevs_sorted _ o.reviews hso

/-- Witness for the amended C3: a two-review document comes out sorted
newest-first in both pipelines. -/
theorem c3_amended_descending_witness :
    List.Sorted dateGE (SOut.mk 2 [c3rb, c3ra]).reviews ∧
    List.Sorted dateGE (POut.mk {} 2 [c3rb, c3ra]).reviews :=
  ⟨(c3_amended_descending id).1 [some c3doc] [] (SOut.mk 2 [c3rb, c3ra])
      (by decide),
   (c3_amended_descending id).2 (some c3doc) (POut.mk {} 2 [c3rb, c3ra])
      (by decide)⟩

/-- Membership in the dedupe result: a record is kept iff it is the first
record with truthy text bearing its (code-computed) key. -/
theorem dedupeAux_mem_iff :
    ∀ (seen : List JSON) (l out : List Rev), dedupeAux seen l = .ok out →
    ∀ r : Rev, r ∈ out ↔ ∃ k, keyOf r = .ok k ∧ seen.contains k = false ∧
      (l.filter (fun x => truthyO x.text)).find?
        (fun x => keyOf x == Except.ok k) = some r := by
  intro seen l
  induction l generalizing seen with
  | nil =>
    intro out h r
    rw [dedupeAux] at h
    simp only [Except.ok.injEq] at h
    subst h
    simp
  | cons x xs ih =>
    intro out h r
    rw [dedupeAux] at h
    by_cases ht : truthyO x.text
    · rw [if_pos ht] at h
      have hfilter : (x :: xs).filter (fun y => truthyO y.text) =
          x :: xs.filter (fun y => truthyO y.text) :=
        List.filter_cons_of_pos ht
      cases hk : keyOf x with
      | error e =>
        rw [hk, except_bind_error] at h
        cases h
      | ok k' =>
        rw [hk, except_bind_ok] at h
        by_cases hseen : seen.contains k'
        · rw [if_pos hseen] at h
          rw [ih seen out h r, hfilter]
          constructor
          · rintro ⟨k, hkr, hks, hfind⟩
            refine ⟨k, hkr, hks, ?_⟩
            rw [List.find?_cons_of_neg]
            · exact hfind
            · rw [hk]
              simp only [beq_iff_eq, Except.ok.injEq]
              intro hkk
              subst hkk
              rw [hseen] at hks
              cases hks
          · rintro ⟨k, hkr, hks, hfind⟩
            refine ⟨k, hkr, hks, ?_⟩
            rw [List.find?_cons_of_neg] at hfind
            · exact hfind
            · rw [hk]
              simp only [beq_iff_eq, Except.ok.injEq]
              intro hkk
              subst hkk
              rw [hseen] at hks
              cases hks
        · rw [if_neg hseen] at h
          cases hrec : dedupeAux (k' :: seen) xs with
          | error e =>
            rw [hrec, except_bind_error] at h
            cases h
          | ok rest =>
            rw [hrec, except_bind_ok] at h
            simp only [Except.ok.injEq] at h
            subst h
            rw [hfilter]
            constructor
            · intro hr
              rcases List.mem_cons.1 hr with hr1 | hr2
              · subst hr1
                refine ⟨k', hk, by simpa using hseen, ?_⟩
                rw [List.find?_cons_of_pos]
                rw [hk]
                simp
              · obtain ⟨k, hkr, hks, hfind⟩ := (ih (k' :: seen) rest hrec r).1 hr2
                rw [List.contains_cons, Bool.or_eq_false_iff] at hks
                obtain ⟨hks1, hks2⟩ := hks
                refine ⟨k, hkr, hks2, ?_⟩
                rw [List.find?_cons_of_neg]
                · exact hfind
                · rw [hk]
                  simp only [beq_iff_eq, Except.ok.injEq]
                  intro hkk
                  subst hkk
                  simp at hks1
            · rintro ⟨k, hkr, hks, hfind⟩
              by_cases hkk : k = k'
              · subst hkk
                rw [List.find?_cons_of_pos _ (by rw [hk]; simp)] at hfind
                simp only [Option.some.injEq] at hfind
                subst hfind
                exact List.mem_cons_self _ _
              · rw [List.find?_cons_of_neg _ (by
                  rw [hk]
                  simp only [beq_iff_eq, Except.ok.injEq]
                  intro hkk2
                  exact hkk hkk2.symm)] at hfind
                apply List.mem_cons_of_mem
                refine (ih (k' :: seen) rest hrec r).2 ⟨k, hkr, ?_, hfind⟩
                rw [List.contains_cons, Bool.or_eq_false_iff]
                exact ⟨beq_eq_false_iff_ne.2 hkk, hks⟩
    · rw [if_neg ht] at h
      rw [ih seen out h r]
      have hfilter : (x :: xs).filter (fun y => truthyO y.text) =
          xs.filter (fun y => truthyO y.text) :=
        List.filter_cons_of_neg ht
      rw [hfilter]

/-- Counterexample to claim C2 as stated.  First, two records whose
`review_id` key is *present* but empty share the claim's key, yet the code
keeps both (the code falls back to the composite when the id is falsy, not
merely absent).  Second, `parse.py` performs no deduplication at all: a
document repeating the same `Review:abc` entry in two script blocks yields
it twice in the final output. -/
theorem c2_counterexample :
    claimKey c2r1 = claimKey c2r2 ∧ c2r1 ≠ c2r2 ∧
    dedupeAndSort [c2r1, c2r2] = .ok [c2r1, c2r2] ∧
    parseMain id (some c2doc) = .ok ⟨{}, 2, [c2dup, c2dup]⟩ ∧
    c2dup.review_id = some (.str "abc") := by
  decide

/-- Claim C2 (amended): the *scraper* pipeline deduplicates by the key
`keyOf` — the explicit `review_id` when present *and truthy (non-empty)*,
otherwise `reviewer + "|" + date_local` — keeping exactly the first
truthy-text record bearing each key; the *parse* pipeline does not
deduplicate: with a non-empty embedded extraction its output is a
permutation of all attached records. -/
theorem c2_amended_dedupe :
    (∀ l out, dedupeAndSort l = .ok out → ∀ r : Rev,
      (r ∈ out ↔ ∃ k, keyOf r = .ok k ∧
        (l.filter (fun x => truthyO x.text)).find?
          (fun x => keyOf x == Except.ok k) = some r)) ∧
    (∀ (uesc : String → String) scripts cards heading revs users o,
      parseExtract uesc scripts = .ok (revs, users) →
      parseMain uesc (some ⟨scripts, cards, heading⟩) = .ok o → revs ≠ [] →
      o.reviews.Perm (parseAttach revs users)) := by
  constructor
  · intro l out h r
    unfold dedupeAndSort at h
    cases hdd : dedupeAux [] l with
    | error e =>
      rw [hdd, except_bind_error] at h
      cases h
    | ok d =>
      rw [hdd, except_bind_ok] at h
      rw [(sortRevs_perm d out h).mem_iff, dedupeAux_mem_iff [] l d hdd r]
      constructor
      · rintro ⟨k, hkr, _, hfind⟩
        exact ⟨k, hkr, hfind⟩
      · rintro ⟨k, hkr, hfind⟩
        exact ⟨k, hkr, rfl, hfind⟩
  · intro uesc scripts cards heading revs users o hex ho hne
    obtain ⟨d, hd, hb, _⟩ := parseMain_ok uesc _ o ho
    have hd2 : d = ⟨scripts, cards, heading⟩ := (Option.some.inj hd).symm
    subst hd2
    obtain ⟨revs2, users2, hex2, _, hso⟩ := parseBody_ok uesc _ _ _ hb
    dsimp only at hex2 hso
    rw [hex] at hex2
    have h1 := Except.ok.inj hex2
    have h1a : revs = revs2 := congrArg Prod.fst h1
    have h1b : users = users2 := congrArg Prod.snd h1
    subst h1a
    subst h1b
    have hAe : (parseAttach revs users).isEmpty = false := by
      rw [parseAttach_isEmpty]
      cases revs with
      | nil => exact absurd rfl hne
      | cons a as => rfl
    rw [if_neg (by rw [hAe]; exact Bool.false_ne_true)] at hso
    exact sortRevs_perm _ _ hso

/-- Witness for the amended C2 at concrete inputs: the first-occurrence
characterisation at `c2r1`, and the parse pipeline's no-dedup permutation
on the duplicated document. -/
theorem c2_amended_dedupe_witness :
    ((c2r1 ∈ [c2r1, c2r2]) ↔ ∃ k, keyOf c2r1 = .ok k ∧
      (([c2r1, c2r2]).filter (fun x => truthyO x.text)).find?
        (fun x => keyOf x == Except.ok k) = some c2r1) ∧
    (POut.mk {} 2 [c2dup, c2dup]).reviews.Perm
      (parseAttach [c2preDup, c2preDup] []) :=
  ⟨c2_amended_dedupe.1 [c2r1, c2r2] [c2r1, c2r2] (by decide) c2r1,
   c2_amended_dedupe.2 id c2doc.scripts [] none [c2preDup, c2preDup] []
     (POut.mk {} 2 [c2dup, c2dup]) (by decide) (by decide) (by decide)⟩

/-- Records kept by the dedupe loop have truthy text, a computed key not in
`seen`, and pairwise distinct keys. -/
theorem dedupeAux_nodup :
    ∀ (seen : List JSON) (l out : List Rev), dedupeAux seen l = .ok out →
      (∀ r ∈ out, truthyO r.text = true ∧
        ∃ k, keyOf r = .ok k ∧ seen.contains k = false) ∧
      List.Pairwise (fun a b => keyOf a ≠ keyOf b) out := by
  intro seen l
  induction l generalizing seen with
  | nil =>
    intro out h
    rw [dedupeAux] at h
    simp only [Except.ok.injEq] at h
    subst h
    simp
  | cons x xs ih =>
    intro out h
    rw [dedupeAux] at h
    by_cases ht : truthyO x.text
    · rw [if_pos ht] at h
      cases hk : keyOf x with
      | error e =>
        rw [hk, except_bind_error] at h
        cases h
      | ok k' =>
        rw [hk, except_bind_ok] at h
        by_cases hseen : seen.contains k'
        · rw [if_pos hseen] at h
          exact ih seen out h
        · rw [if_neg hseen] at h
          cases hrec : dedupeAux (k' :: seen) xs with
          | error e =>
            rw [hrec, except_bind_error] at h
            cases h
          | ok rest =>
            rw [hrec, except_bind_ok] at h
            simp only [Except.ok.injEq] at h
            subst h
            obtain ⟨ihm, ihp⟩ := ih (k' :: seen) rest hrec
            constructor
            · intro r hr
              rcases List.mem_cons.1 hr with hr1 | hr2
              · subst hr1
                exact ⟨ht, k', hk, by simpa using hseen⟩
              · obtain ⟨htr, k, hkr, hks⟩ := ihm r hr2
                rw [List.contains_cons, Bool.or_eq_false_iff] at hks
                exact ⟨htr, k, hkr, hks.2⟩
            · refine List.Pairwise.cons ?_ ihp
              intro b hb
              obtain ⟨_, k, hkb, hks⟩ := ihm b hb
              rw [List.contains_cons, Bool.or_eq_false_iff] at hks
              rw [hk, hkb]
              intro hcon
              have : k' = k := Except.ok.inj hcon
              subst this
              rw [beq_eq_false_iff_ne] at hks
              exact hks.1 rfl
    · rw [if_neg ht] at h
      exact ih seen out h

/-- When every record has truthy text, an already-computed key outside
`seen`, and the keys are pairwise distinct, the dedupe loop keeps the whole
list unchanged. -/
theorem dedupeAux_all_kept :
    ∀ (l : List Rev) (seen : List JSON),
      (∀ r ∈ l, truthyO r.text = true ∧
        ∃ k, keyOf r = .ok k ∧ seen.contains k = false) →
      List.Pairwise (fun a b => keyOf a ≠ keyOf b) l →
      dedupeAux seen l = .ok l := by
  intro l
  induction l with
  | nil => intro seen _ _; rfl
  | cons x xs ih =>
    intro seen hm hp
    obtain ⟨ht, k, hk, hks⟩ := hm x (List.mem_cons_self _ _)
    rw [dedupeAux, if_pos ht, hk, except_bind_ok,
      if_neg (by rw [hks]; exact Bool.false_ne_true)]
    have hrec : dedupeAux (k :: seen) xs = .ok xs := by
      apply ih
      · intro r hr
        obtain ⟨htr, kr, hkr, hksr⟩ := hm r (List.mem_cons_of_mem _ hr)
        refine ⟨htr, kr, hkr, ?_⟩
        rw [List.contains_cons, Bool.or_eq_false_iff]
        refine ⟨?_, hksr⟩
        rw [beq_eq_false_iff_ne]
        intro hkk
        have := (List.pairwise_cons.1 hp).1 r hr
        rw [hk, hkr] at this
        exact this (by rw [hkk])
      · exact (List.pairwise_cons.1 hp).2
    rw [hrec, except_bind_ok]

theorem sortRevs_datesOK (l out : List Rev) (h : sortRevs l = .ok out) :
    datesOK l = true := by
  unfold sortRevs at h
  by_cases hd : datesOK l
  · exact hd
  · rw [if_neg hd] at h
    cases h

theorem datesOK_of_perm (l m : List Rev) (hp : m.Perm l)
    (h : datesOK l = true) : datesOK m = true := by
  rw [datesOK, List.all_eq_true] at h ⊢
  intro r hr
  exact h r (hp.mem_iff.1 hr)

/-- Claim C7: the merge+dedupe(+sort) operation is idempotent — a second
application to its own output returns the output unchanged. -/
theorem c7_dedupe_idempotent (l m : List Rev) (h : dedupeAndSort l = .ok m) :
    dedupeAndSort m = .ok m := by
  unfold dedupeAndSort at h ⊢
  cases hdd : dedupeAux [] l with
  | error e =>
    rw [hdd, except_bind_error] at h
    cases h
  | ok d =>
    rw [hdd, except_bind_ok] at h
    have hperm : m.Perm d := sortRevs_perm d m h
    obtain ⟨hmem, hpair⟩ := dedupeAux_nodup [] l d hdd
    have hm1 : ∀ r ∈ m, truthyO r.text = true ∧
        ∃ k, keyOf r = .ok k ∧ ([] : List JSON).contains k = false :=
      fun r hr => hmem r (hperm.mem_iff.1 hr)
    have hm2 : List.Pairwise (fun a b => keyOf a ≠ keyOf b) m :=
      (List.Perm.pairwise_iff (fun hxy he => hxy he.symm) hperm).2 hpair
    rw [dedupeAux_all_kept m [] hm1 hm2, except_bind_ok]
    have hdk : datesOK m = true :=
      datesOK_of_perm d m hperm (sortRevs_datesOK d m h)
    have hsorted : List.Sorted dateGE m := sortRevs_sorted d m h
    unfold sortRevs
    rw [if_pos hdk, hsorted.insertionSort_eq]

/-- Witness for C7 on a concrete two-record list. -/
theorem c7_dedupe_idempotent_witness :
    dedupeAndSort [c3r1, c3r2] = .ok [c3r1, c3r2] :=
  c7_dedupe_idempotent [c3r1, c3r2] [c3r1, c3r2] (by decide)

/-! ## The business-metadata extractor: per-field behaviour -/

theorem updateBiz_overall (info : Biz) (d : JSON) :
    (updateBiz info d).overall_rating =
      if info.overall_rating ≠ "" then info.overall_rating
      else (candOR d).getD "" := by
  unfold updateBiz candOR
  cases hagg : pyOr (d.get? "aggregateRating") (jobj []) with
  | obj kvs =>
    dsimp only
    by_cases hc : strIfPresent ((JSON.obj kvs).get? "ratingValue") ≠ ""
    · rw [if_pos hc]
      simp
    · rw [if_neg hc]
      push_neg at hc
      simp [hc]
  | null => dsimp only; by_cases h0 : info.overall_rating ≠ "" <;> simp [h0] <;> exact not_ne_iff.1 h0
  | bool b => dsimp only; by_cases h0 : info.overall_rating ≠ "" <;> simp [h0] <;> exact not_ne_iff.1 h0
  | num n => dsimp only; by_cases h0 : info.overall_rating ≠ "" <;> simp [h0] <;> exact not_ne_iff.1 h0
  | str s => dsimp only; by_cases h0 : info.overall_rating ≠ "" <;> simp [h0] <;> exact not_ne_iff.1 h0
  | arr xs => dsimp only; by_cases h0 : info.overall_rating ≠ "" <;> simp [h0] <;> exact not_ne_iff.1 h0

theorem updateBiz_count (info : Biz) (d : JSON) :
    (updateBiz info d).total_review_count =
      if info.total_review_count ≠ "" then info.total_review_count
      else (candRC d).getD "" := by
  unfold updateBiz candRC
  cases hagg : pyOr (d.get? "aggregateRating") (jobj []) with
  | obj kvs =>
    dsimp only
    by_cases hc : strIfPresent ((JSON.obj kvs).get? "reviewCount") ≠ ""
    · rw [if_pos hc]
      simp
    · rw [if_neg hc]
      push_neg at hc
      simp [hc]
  | null => dsimp only; by_cases h0 : info.total_review_count ≠ "" <;> simp [h0] <;> exact not_ne_iff.1 h0
  | bool b => dsimp only; by_cases h0 : info.total_review_count ≠ "" <;> simp [h0] <;> exact not_ne_iff.1 h0
  | num n => dsimp only; by_cases h0 : info.total_review_count ≠ "" <;> simp [h0] <;> exact not_ne_iff.1 h0
  | str s => dsimp only; by_cases h0 : info.total_review_count ≠ "" <;> simp [h0] <;> exact not_ne_iff.1 h0
  | arr xs => dsimp only; by_cases h0 : info.total_review_count ≠ "" <;> simp [h0] <;> exact not_ne_iff.1 h0

theorem updateBiz_pr (info : Biz) (d : JSON) :
    (updateBiz info d).priceRange = (candPR d).getD info.priceRange := by
  unfold updateBiz candPR
  cases hpr : d.get? "priceRange" with
  | none => simp [truthyO]
  | some v =>
    dsimp only
    by_cases hv : v.truthy
    · simp [truthyO, hv]
    · simp [truthyO, hv]

theorem updateBiz_name (info : Biz) (d : JSON) :
    (updateBiz info d).name =
      if info.name.truthy then info.name else (candName d).getD (.str "") := by
  unfold updateBiz candName
  by_cases hn : info.name.truthy
  · simp [hn]
  · simp only [hn, if_false, Bool.false_eq_true]
    by_cases hv : ((d.get? "name").getD (.str "")).truthy
    · simp [hv]
    · simp [hv]

theorem candOR_some_ne (d : JSON) (c : String) (hc : candOR d = some c) :
    c ≠ "" := by
  unfold candOR at hc
  cases hagg : pyOr (d.get? "aggregateRating") (jobj []) with
  | obj kvs2 =>
    rw [hagg] at hc
    dsimp only at hc
    by_cases hx : strIfPresent ((JSON.obj kvs2).get? "ratingValue") ≠ ""
    · rw [if_pos hx] at hc
      cases hc
      exact hx
    · rw [if_neg hx] at hc
      cases hc
  | null => rw [hagg] at hc; cases hc
  | bool b => rw [hagg] at hc; cases hc
  | num n => rw [hagg] at hc; cases hc
  | str s => rw [hagg] at hc; cases hc
  | arr xs => rw [hagg] at hc; cases hc

theorem candRC_some_ne (d : JSON) (c : String) (hc : candRC d = some c) :
    c ≠ "" := by
  unfold candRC at hc
  cases hagg : pyOr (d.get? "aggregateRating") (jobj []) with
  | obj kvs2 =>
    rw [hagg] at hc
    dsimp only at hc
    by_cases hx : strIfPresent ((JSON.obj kvs2).get? "reviewCount") ≠ ""
    · rw [if_pos hx] at hc
      cases hc
      exact hx
    · rw [if_neg hx] at hc
      cases hc
  | null => rw [hagg] at hc; cases hc
  | bool b => rw [hagg] at hc; cases hc
  | num n => rw [hagg] at hc; cases hc
  | str s => rw [hagg] at hc; cases hc
  | arr xs => rw [hagg] at hc; cases hc

theorem candName_some_truthy (d : JSON) (v : JSON) (hc : candName d = some v) :
    v.truthy = true := by
  unfold candName at hc
  dsimp only at hc
  by_cases hx : ((d.get? "name").getD (.str "")).truthy
  · rw [if_pos hx] at hc
    cases hc
    exact hx
  · rw [if_neg hx] at hc
    cases hc

theorem bizStep_ok (info : Biz) (d : JSON) (info1 : Biz)
    (h : bizStep info d = .ok info1) :
    (bizMatches d = true ∧ info1 = updateBiz info d) ∨
    (bizMatches d = false ∧ info1 = info) := by
  cases d with
  | obj kvs =>
    unfold bizStep at h
    cases hty : (JSON.obj kvs).get? "@type" with
    | none =>
      rw [hty] at h
      dsimp only at h
      by_cases hm : bizMatches (JSON.obj kvs)
      · rw [if_pos hm] at h
        exact .inl ⟨hm, (Except.ok.inj h).symm⟩
      · rw [if_neg hm] at h
        exact .inr ⟨by simpa using hm, (Except.ok.inj h).symm⟩
    | some w =>
      rw [hty] at h
      cases w with
      | arr xs => cases h
      | obj kvs2 => cases h
      | null =>
        dsimp only at h
        by_cases hm : bizMatches (JSON.obj kvs)
        · rw [if_pos hm] at h
          exact .inl ⟨hm, (Except.ok.inj h).symm⟩
        · rw [if_neg hm] at h
          exact .inr ⟨by simpa using hm, (Except.ok.inj h).symm⟩
      | bool b =>
        dsimp only at h
        by_cases hm : bizMatches (JSON.obj kvs)
        · rw [if_pos hm] at h
          exact .inl ⟨hm, (Except.ok.inj h).symm⟩
        · rw [if_neg hm] at h
          exact .inr ⟨by simpa using hm, (Except.ok.inj h).symm⟩
      | num n =>
        dsimp only at h
        by_cases hm : bizMatches (JSON.obj kvs)
        · rw [if_pos hm] at h
          exact .inl ⟨hm, (Except.ok.inj h).symm⟩
        · rw [if_neg hm] at h
          exact .inr ⟨by simpa using hm, (Except.ok.inj h).symm⟩
      | str s =>
        dsimp only at h
        by_cases hm : bizMatches (JSON.obj kvs)
        · rw [if_pos hm] at h
          exact .inl ⟨hm, (Except.ok.inj h).symm⟩
        · rw [if_neg hm] at h
          exact .inr ⟨by simpa using hm, (Except.ok.inj h).symm⟩
  | null => exact .inr ⟨rfl, (Except.ok.inj h).symm⟩
  | bool b => exact .inr ⟨rfl, (Except.ok.inj h).symm⟩
  | num n => exact .inr ⟨rfl, (Except.ok.inj h).symm⟩
  | str s => exact .inr ⟨rfl, (Except.ok.inj h).symm⟩
  | arr xs => exact .inr ⟨rfl, (Except.ok.inj h).symm⟩

/-- Folding the JSON-LD blocks: `overall_rating`, `total_review_count` take
the first non-empty candidate (unless already populated); `priceRange`
takes the *last* truthy candidate; `name` takes the first truthy candidate,
else is cleared to `""` by any matching block. -/
theorem extractBizAux_char :
    ∀ (blocks : List JSON) (info info' : Biz),
      extractBizAux info blocks = .ok info' →
      (info'.overall_rating =
        if info.overall_rating ≠ "" then info.overall_rating
        else ((blocks.filter bizMatches).filterMap candOR).head?.getD "") ∧
      (info'.total_review_count =
        if info.total_review_count ≠ "" then info.total_review_count
        else ((blocks.filter bizMatches).filterMap candRC).head?.getD "") ∧
      (info'.priceRange =
        ((blocks.filter bizMatches).filterMap candPR).getLast?.getD
          info.priceRange) ∧
      (info'.name =
        if info.name.truthy then info.name
        else
          match ((blocks.filter bizMatches).filterMap candName).head? with
          | some v => v
          | none =>
            if (blocks.filter bizMatches).isEmpty then info.name
            else .str "") := by
  intro blocks
  induction blocks with
  | nil =>
    intro info info' h
    rw [extractBizAux] at h
    have h2 := Except.ok.inj h
    subst h2
    refine ⟨?_, ?_, rfl, ?_⟩
    · by_cases h0 : info.overall_rating ≠ ""
      · rw [if_pos h0]
      · rw [if_neg h0]
        simp only [List.filter_nil, List.filterMap_nil, List.head?_nil,
          Option.getD_none]
        exact not_ne_iff.1 h0
    · by_cases h0 : info.total_review_count ≠ ""
      · rw [if_pos h0]
      · rw [if_neg h0]
        simp only [List.filter_nil, List.filterMap_nil, List.head?_nil,
          Option.getD_none]
        exact not_ne_iff.1 h0
    · by_cases h0 : info.name.truthy
      · rw [if_pos h0]
      · rw [if_neg h0]
        simp
  | cons d rest ih =>
    intro info info' h
    rw [extractBizAux] at h
    cases hbs : bizStep info d with
    | error e =>
      rw [hbs, except_bind_error] at h
      cases h
    | ok info1 =>
      rw [hbs, except_bind_ok] at h
      rcases bizStep_ok info d info1 hbs with ⟨hm, rfl⟩ | ⟨hm, rfl⟩
      · -- matching block: one update then the rest
        have hfilter : (d :: rest).filter bizMatches =
            d :: rest.filter bizMatches := List.filter_cons_of_pos hm
        obtain ⟨ih1, ih2, ih3, ih4⟩ := ih (updateBiz info d) info' h
        rw [hfilter]
        refine ⟨?_, ?_, ?_, ?_⟩
        · rw [ih1, updateBiz_overall]
          simp only [List.filterMap_cons]
          by_cases h0 : info.overall_rating ≠ ""
          · simp [h0]
          · cases hc : candOR d with
            | none => simp [h0, hc]
            | some c => simp [h0, hc, candOR_some_ne d c hc]
        · rw [ih2, updateBiz_count]
          simp only [List.filterMap_cons]
          by_cases h0 : info.total_review_count ≠ ""
          · simp [h0]
          · cases hc : candRC d with
            | none => simp [h0, hc]
            | some c => simp [h0, hc, candRC_some_ne d c hc]
        · rw [ih3, updateBiz_pr]
          simp only [List.filterMap_cons]
          cases hc : candPR d with
          | none => simp [hc]
          | some v =>
            simp only [hc, Option.getD_some]
            cases hrest : (rest.filter bizMatches).filterMap candPR with
            | nil => simp
            | cons y ys =>
              have hsome := List.getLast?_eq_getLast (y :: ys) (by simp)
              rw [List.getLast?_cons_cons, hsome]
              simp
        · rw [ih4, updateBiz_name]
          simp only [List.filterMap_cons]
          by_cases h0 : info.name.truthy
          · simp [h0]
          · cases hc : candName d with
            | none =>
              simp only [h0, hc, Option.getD_none, Bool.false_eq_true,
                if_false]
              have hf : (JSON.str "").truthy = false := rfl
              rw [if_neg (by rw [hf]; exact Bool.false_ne_true)]
              cases hhd : ((rest.filter bizMatches).filterMap candName).head? with
              | none => simp
              | some v => rfl
            | some v =>
              have hv : v.truthy = true := candName_some_truthy d v hc
              simp only [h0, hc, Option.getD_some, Bool.false_eq_true,
                if_false, hv, if_true, List.head?_cons]
      · -- non-matching block: nothing changes
        have hfilter : (d :: rest).filter bizMatches =
            rest.filter bizMatches :=
          List.filter_cons_of_neg (by rw [hm]; exact Bool.false_ne_true)
        rw [hfilter]
        exact ih _ _ h

/-- Counterexample to claim C5 as stated: two matching JSON-LD blocks both
carry a truthy `priceRange` (`"$$"` then `"$$$"`); the extractor reports the
*last* one, so a later matching block does override the already-populated
`priceRange` field. -/
theorem c5_counterexample :
    extractBusinessInfo [c5s1, c5s2] none =
      .ok { name := .str "", overall_rating := "", total_review_count := "",
            priceRange := .str "$$$" } ∧
    candPR ((c5s1.parsedRaw).getD .null) = some (.str "$$") ∧
    JSON.str "$$$" ≠ JSON.str "$$" := by
  decide

/-- Claim C5 (amended): across the matching JSON-LD blocks, `name`,
`overall_rating` and `total_review_count` are taken from the first matching
block with a non-empty candidate and later blocks never override them;
`priceRange`, by contrast, is overwritten by every matching block with a
truthy value, so the *last* such block wins.  (`name` additionally falls
back to the page heading when no block offers a truthy name.) -/
theorem c5_amended_first_and_last (scripts : List Script)
    (heading : Option String) (info : Biz)
    (h : extractBusinessInfo scripts heading = .ok info) :
    info.overall_rating =
      (((bizBlocks scripts).filter bizMatches).filterMap candOR).head?.getD ""
    ∧ info.total_review_count =
      (((bizBlocks scripts).filter bizMatches).filterMap candRC).head?.getD ""
    ∧ info.priceRange =
      (((bizBlocks scripts).filter bizMatches).filterMap
        candPR).getLast?.getD (.str "")
    ∧ info.name =
      (match (((bizBlocks scripts).filter bizMatches).filterMap
          candName).head?, heading with
       | some v, _ => v
       | none, some hd => .str (norm hd)
       | none, none => .str "") := by
  unfold extractBusinessInfo at h
  cases haux : extractBizAux {} (bizBlocks scripts) with
  | error e =>
    rw [haux, except_bind_error] at h
    cases h
  | ok info0 =>
    rw [haux, except_bind_ok] at h
    obtain ⟨hor, hrc, hpr, hname⟩ := extractBizAux_char (bizBlocks scripts) {} info0 haux
    simp only [ne_eq, not_true_eq_false, if_false] at hor hrc
    have hname0 : info0.name =
        (((bizBlocks scripts).filter bizMatches).filterMap
          candName).head?.getD (.str "") := by
      rw [hname]
      have hf : (Biz.name {}).truthy = false := rfl
      rw [if_neg (by rw [hf]; exact Bool.false_ne_true)]
      cases hhd : (((bizBlocks scripts).filter bizMatches).filterMap
          candName).head? with
      | none =>
        by_cases he : ((bizBlocks scripts).filter bizMatches).isEmpty
        · simp [he]
        · simp [he]
      | some v => rfl
    -- resolve the heading fallback
    by_cases ht : info0.name.truthy
    · rw [if_pos ht] at h
      have h2 := Except.ok.inj h
      subst h2
      refine ⟨by simpa using hor, by simpa using hrc, by simpa using hpr, ?_⟩
      rw [hname0]
      cases hhd : (((bizBlocks scripts).filter bizMatches).filterMap
          candName).head? with
      | none =>
        rw [hname0, hhd] at ht
        simp [JSON.truthy] at ht
      | some v => simp
    · rw [if_neg ht] at h
      cases heading with
      | some hd =>
        have h2 := Except.ok.inj h
        subst h2
        refine ⟨by simpa using hor, by simpa using hrc, by simpa using hpr, ?_⟩
        dsimp only
        cases hhd : (((bizBlocks scripts).filter bizMatches).filterMap
            candName).head? with
        | none => rfl
        | some v =>
          -- a truthy candidate contradicts ¬ info0.name.truthy
          obtain ⟨x, hx, hcx⟩ := List.mem_filterMap.1
            (List.mem_of_mem_head? (by rw [hhd]; exact rfl))
          have hv := candName_some_truthy x v hcx
          rw [hname0, hhd] at ht
          simp only [Option.getD_some] at ht
          exact absurd hv (by simpa using ht)
      | none =>
        have h2 := Except.ok.inj h
        subst h2
        refine ⟨by simpa using hor, by simpa using hrc, by simpa using hpr, ?_⟩
        cases hhd : (((bizBlocks scripts).filter bizMatches).filterMap
            candName).head? with
        | none =>
          rw [hname0, hhd]
          rfl
        | some v =>
          obtain ⟨x, hx, hcx⟩ := List.mem_filterMap.1
            (List.mem_of_mem_head? (by rw [hhd]; exact rfl))
          have hv := candName_some_truthy x v hcx
          rw [hname0, hhd] at ht
          simp only [Option.getD_some] at ht
          exact absurd hv (by simpa using ht)

/-- Witness for the amended C5 on the two-block document. -/
theorem c5_amended_first_and_last_witness :
    (Biz.mk (.str "") "" "" (.str "$$$")).overall_rating =
      (((bizBlocks [c5s1, c5s2]).filter bizMatches).filterMap
        candOR).head?.getD ""
    ∧ (Biz.mk (.str "") "" "" (.str "$$$")).total_review_count =
      (((bizBlocks [c5s1, c5s2]).filter bizMatches).filterMap
        candRC).head?.getD ""
    ∧ (Biz.mk (.str "") "" "" (.str "$$$")).priceRange =
      (((bizBlocks [c5s1, c5s2]).filter bizMatches).filterMap
        candPR).getLast?.getD (.str "")
    ∧ (Biz.mk (.str "") "" "" (.str "$$$")).name =
      (match (((bizBlocks [c5s1, c5s2]).filter bizMatches).filterMap
          candName).head?, (none : Option String) with
       | some v, _ => v
       | none, some hd => .str (norm hd)
       | none, none => .str "") :=
  c5_amended_first_and_last [c5s1, c5s2] none
    (Biz.mk (.str "") "" "" (.str "$$$")) (by decide)

/-! ## Well-typed documents never raise -/

theorem wfLeaf_pyOr_str (a : Option JSON) (b : JSON) (ha : wfLeaf a = true)
    (hb : ∃ t, b = .str t) : ∃ s, pyOr a b = .str s := by
  cases a with
  | none => exact hb
  | some v =>
    cases v with
    | null => exact hb
    | str s =>
      unfold pyOr
      dsimp only
      by_cases hs : (JSON.str s).truthy
      · rw [if_pos hs]
        exact ⟨s, rfl⟩
      · rw [if_neg hs]
        exact hb
    | bool b2 => simp [wfLeaf] at ha
    | num n => simp [wfLeaf] at ha
    | arr xs => simp [wfLeaf] at ha
    | obj kvs => simp [wfLeaf] at ha

theorem subGet_obj (kvs : JObj) (k : String) :
    subGet (some (.obj kvs)) k =
      .ok (if (JSON.obj kvs).truthy then (JSON.obj kvs).get? k else none) := by
  unfold subGet
  dsimp only
  by_cases ht : (JSON.obj kvs).truthy
  · rw [if_pos ht, if_pos ht]
  · rw [if_neg ht, if_neg ht]

theorem wfLeaf_if (c : Bool) (a : Option JSON) (ha : wfLeaf a = true) :
    wfLeaf (if c = true then a else none) = true := by
  cases c with
  | true => simpa using ha
  | false => rfl

theorem textOf_wf (v : JSON) (hwf : wfTextObj (v.get? "text") = true) :
    ∃ s, textOf v = .ok s := by
  unfold textOf
  dsimp only
  cases htf : v.get? "text" with
  | none => exact ⟨"", rfl⟩
  | some w =>
    rw [htf] at hwf
    cases w with
    | obj kvs =>
      simp only [wfTextObj, Bool.and_eq_true] at hwf
      obtain ⟨hfull, hplain⟩ := hwf
      rw [subGet_obj, except_bind_ok, subGet_obj, except_bind_ok]
      obtain ⟨s, hs⟩ := wfLeaf_pyOr_str _ _
        (wfLeaf_if ((JSON.obj kvs).truthy) _ hplain) ⟨"", rfl⟩
      obtain ⟨s2, hs2⟩ := wfLeaf_pyOr_str _ _
        (wfLeaf_if ((JSON.obj kvs).truthy) _ hfull) ⟨s, hs⟩
      rw [hs2]
      exact ⟨s2, rfl⟩
    | null => simp [wfTextObj] at hwf
    | bool b => simp [wfTextObj] at hwf
    | num n => simp [wfTextObj] at hwf
    | str s => simp [wfTextObj] at hwf
    | arr xs => simp [wfTextObj] at hwf

theorem dateOf_wf (v : JSON) (hca : wfCreated (v.get? "createdAt") = true)
    (hld : wfLeaf (v.get? "localizedDate") = true) :
    ∃ s, dateOf v = .ok (.str s) := by
  unfold dateOf
  cases hc : v.get? "createdAt" with
  | none =>
    obtain ⟨s, hs⟩ := wfLeaf_pyOr_str (v.get? "localizedDate") (.str "") hld ⟨"", rfl⟩
    refine ⟨s, ?_⟩
    show Except.ok (pyOr (v.get? "localizedDate") (.str "")) = Except.ok (JSON.str s)
    rw [hs]
  | some w =>
    rw [hc] at hca
    cases w with
    | obj kvs =>
      simp only [wfCreated] at hca
      rw [subGet_obj, except_bind_ok]
      obtain ⟨s0, hs0⟩ := wfLeaf_pyOr_str (v.get? "localizedDate") (.str "") hld ⟨"", rfl⟩
      obtain ⟨s, hs⟩ := wfLeaf_pyOr_str _ _
        (wfLeaf_if ((JSON.obj kvs).truthy) _ hca) ⟨s0, hs0⟩
      exact ⟨s, by rw [hs]⟩
    | null => simp [wfCreated] at hca
    | bool b => simp [wfCreated] at hca
    | num n => simp [wfCreated] at hca
    | str s => simp [wfCreated] at hca
    | arr xs => simp [wfCreated] at hca

theorem ridOf_wf (k : String) (v : JSON) (he : wfLeaf (v.get? "encid") = true)
    (hr : wfLeaf (v.get? "reviewId") = true) : ∃ s, ridOf k v = .str s := by
  unfold ridOf
  obtain ⟨s0, hs0⟩ := wfLeaf_pyOr_str (v.get? "reviewId") (.str k) hr ⟨k, rfl⟩
  exact wfLeaf_pyOr_str (v.get? "encid") _ he ⟨s0, hs0⟩

theorem authorRefOf_eq_obj (v : JSON) (kvs : JObj)
    (h : v.get? "author" = some (.obj kvs)) :
    authorRefOf v =
      match List.lookup "__ref" (JObj.toList kvs) with
      | some (.str s) => .ok (splitColonTail s)
      | some _ => .error ()
      | none => .ok "" := by
  unfold authorRefOf
  rw [h]

theorem authorRefOf_wf (v : JSON) (ha : wfAuthor (v.get? "author") = true) :
    ∃ a, authorRefOf v = .ok a := by
  cases hau : v.get? "author" with
  | none => exact ⟨"", by unfold authorRefOf; rw [hau]⟩
  | some w =>
    rw [hau] at ha
    cases w with
    | obj kvs =>
      simp only [wfAuthor] at ha
      rw [authorRefOf_eq_obj v kvs hau]
      cases href : List.lookup "__ref" (JObj.toList kvs) with
      | none => exact ⟨"", rfl⟩
      | some u =>
        rw [href] at ha
        cases u with
        | str s => exact ⟨splitColonTail s, rfl⟩
        | null => cases ha
        | bool b => cases ha
        | num n => cases ha
        | arr xs => cases ha
        | obj kvs2 => cases ha
    | null => exact ⟨"", by unfold authorRefOf; rw [hau]⟩
    | bool b => exact ⟨"", by unfold authorRefOf; rw [hau]⟩
    | num n => exact ⟨"", by unfold authorRefOf; rw [hau]⟩
    | str s => exact ⟨"", by unfold authorRefOf; rw [hau]⟩
    | arr xs => exact ⟨"", by unfold authorRefOf; rw [hau]⟩

theorem displayBase_wf (v : JSON) (hd : wfLeaf (v.get? "displayName") = true) :
    ∃ s, displayBase v = .ok s := by
  unfold displayBase
  cases hdn : v.get? "displayName" with
  | none => exact ⟨"", rfl⟩
  | some w =>
    rw [hdn] at hd
    cases w with
    | null => exact ⟨"", rfl⟩
    | str s =>
      dsimp only
      by_cases ht : (JSON.str s).truthy
      · rw [if_pos ht]
        exact ⟨s, rfl⟩
      · rw [if_neg ht]
        exact ⟨"", rfl⟩
    | bool b => cases hd
    | num n => cases hd
    | arr xs => cases hd
    | obj kvs => cases hd

theorem userAct_wf (uesc : String → String) (k : String) (v : JSON)
    (hd : wfLeaf (v.get? "displayName") = true) :
    ∃ a, userAct uesc k v = .ok a := by
  unfold userAct
  obtain ⟨s, hs⟩ := displayBase_wf v hd
  rw [hs, except_bind_ok]
  by_cases hc : splitColonTail k ≠ "" ∧ uesc s ≠ ""
  · rw [if_pos hc]
    exact ⟨_, rfl⟩
  · rw [if_neg hc]
    exact ⟨_, rfl⟩

theorem reviewBodyS_wf (k : String) (v : JSON)
    (h1 : wfTextObj (v.get? "text") = true)
    (h2 : wfCreated (v.get? "createdAt") = true)
    (h3 : wfLeaf (v.get? "localizedDate") = true)
    (h4 : wfLeaf (v.get? "encid") = true)
    (h5 : wfLeaf (v.get? "reviewId") = true)
    (h6 : wfAuthor (v.get? "author") = true) :
    ∃ a, reviewBodyS k v = .ok a ∧ ∀ r, a = .rev r → preShape r := by
  obtain ⟨s, hs⟩ := textOf_wf v h1
  obtain ⟨ds, hds⟩ := dateOf_wf v h2 h3
  obtain ⟨ri, hri⟩ := ridOf_wf k v h4 h5
  obtain ⟨ar, har⟩ := authorRefOf_wf v h6
  unfold reviewBodyS
  rw [hs, except_bind_ok]
  by_cases he : pyStripL s.data = []
  · rw [if_pos he]
    exact ⟨.skip, rfl, fun r hr => by cases hr⟩
  · rw [if_neg he]
    rw [hds, except_bind_ok, har, except_bind_ok]
    refine ⟨.rev (mkRev (ridOf k v) ar (v.get? "rating") (.str ds) s), rfl, ?_⟩
    intro r hr
    injection hr with hr
    subst hr
    refine ⟨⟨ri, ?_⟩, ⟨ar, rfl⟩, ⟨ds, rfl⟩⟩
    show some (ridOf k v) = some (JSON.str ri)
    rw [hri]

theorem reviewBodyP_wf (k : String) (v : JSON)
    (h1 : wfTextObj (v.get? "text") = true)
    (h2 : wfCreated (v.get? "createdAt") = true)
    (h3 : wfLeaf (v.get? "localizedDate") = true)
    (h4 : wfLeaf (v.get? "encid") = true)
    (h5 : wfLeaf (v.get? "reviewId") = true)
    (h6 : wfAuthor (v.get? "author") = true) :
    ∃ a, reviewBodyP k v = .ok a ∧ ∀ r, a = .rev r → preShape r := by
  obtain ⟨s, hs⟩ := textOf_wf v h1
  obtain ⟨ds, hds⟩ := dateOf_wf v h2 h3
  obtain ⟨ri, hri⟩ := ridOf_wf k v h4 h5
  obtain ⟨ar, har⟩ := authorRefOf_wf v h6
  unfold reviewBodyP
  rw [hs, except_bind_ok]
  rw [hds, except_bind_ok, har, except_bind_ok]
  by_cases he : norm s = ""
  · rw [if_pos he]
    exact ⟨.skip, rfl, fun r hr => by cases hr⟩
  · rw [if_neg he]
    refine ⟨.rev (mkRev (ridOf k v) ar (v.get? "rating") (.str ds) s), rfl, ?_⟩
    intro r hr
    injection hr with hr
    subst hr
    refine ⟨⟨ri, ?_⟩, ⟨ar, rfl⟩, ⟨ds, rfl⟩⟩
    show some (ridOf k v) = some (JSON.str ri)
    rw [hri]

theorem entryActS_wf (uesc : String → String) (k : String) (v : JSON)
    (hwf : wfEntry v = true) :
    ∃ a, entryActS uesc k v = .ok a ∧ ∀ r, a = .rev r → preShape r := by
  cases v with
  | obj kvs =>
    rw [entryActS]
    rw [wfEntry] at hwf
    by_cases h1 : (JSON.obj kvs).get? "__typename" = some (.str "Review")
    · rw [if_pos h1]
      rw [if_pos h1] at hwf
      simp only [Bool.and_eq_true] at hwf
      obtain ⟨⟨⟨⟨⟨ht, hc⟩, hl⟩, he⟩, hr⟩, ha⟩ := hwf
      exact reviewBodyS_wf k (JSON.obj kvs) ht hc hl he hr ha
    · rw [if_neg h1]
      rw [if_neg h1] at hwf
      by_cases h2 : (JSON.obj kvs).get? "__typename" = some (.str "User")
      · rw [if_pos h2]
        rw [if_pos h2] at hwf
        obtain ⟨a, ha⟩ := userAct_wf uesc k (JSON.obj kvs) hwf
        refine ⟨a, ha, ?_⟩
        intro r hr
        subst hr
        exact absurd ha (userAct_no_rev _ _ _ _)
      · rw [if_neg h2]
        exact ⟨.skip, rfl, fun r hr => by cases hr⟩
  | null => exact ⟨.skip, rfl, fun r hr => by cases hr⟩
  | bool b => exact ⟨.skip, rfl, fun r hr => by cases hr⟩
  | num n => exact ⟨.skip, rfl, fun r hr => by cases hr⟩
  | str s => exact ⟨.skip, rfl, fun r hr => by cases hr⟩
  | arr xs => exact ⟨.skip, rfl, fun r hr => by cases hr⟩

theorem entryActP_wf (uesc : String → String) (k : String) (v : JSON)
    (hwf : wfEntry v = true) :
    ∃ a, entryActP uesc k v = .ok a ∧ ∀ r, a = .rev r → preShape r := by
  cases v with
  | obj kvs =>
    rw [entryActP]
    rw [wfEntry] at hwf
    by_cases h1 : (JSON.obj kvs).get? "__typename" = some (.str "Review")
    · rw [if_pos h1]
      rw [if_pos h1] at hwf
      simp only [Bool.and_eq_true] at hwf
      obtain ⟨⟨⟨⟨⟨ht, hc⟩, hl⟩, he⟩, hr⟩, ha⟩ := hwf
      exact reviewBodyP_wf k (JSON.obj kvs) ht hc hl he hr ha
    · rw [if_neg h1]
      rw [if_neg h1] at hwf
      by_cases h2 : (JSON.obj kvs).get? "__typename" = some (.str "User")
      · rw [if_pos h2]
        rw [if_pos h2] at hwf
        obtain ⟨a, ha⟩ := userAct_wf uesc k (JSON.obj kvs) hwf
        refine ⟨a, ha, ?_⟩
        intro r hr
        subst hr
        exact absurd ha (userAct_no_rev _ _ _ _)
      · rw [if_neg h2]
        exact ⟨.skip, rfl, fun r hr => by cases hr⟩
  | null => exact ⟨.skip, rfl, fun r hr => by cases hr⟩
  | bool b => exact ⟨.skip, rfl, fun r hr => by cases hr⟩
  | num n => exact ⟨.skip, rfl, fun r hr => by cases hr⟩
  | str s => exact ⟨.skip, rfl, fun r hr => by cases hr⟩
  | arr xs => exact ⟨.skip, rfl, fun r hr => by cases hr⟩

theorem entriesOf_wf (act : String → JSON → Except Unit EAct)
    (hact : ∀ k v, wfEntry v = true →
      ∃ a, act k v = .ok a ∧ ∀ r, a = .rev r → preShape r) :
    ∀ (kvs : List (String × JSON)),
      (∀ kv ∈ kvs, wfEntry kv.2 = true) →
      ∀ us, ∃ revs users', entriesOf act kvs us = .ok (revs, users') ∧
        ∀ r ∈ revs, preShape r := by
  intro kvs
  induction kvs with
  | nil =>
    intro _ us
    exact ⟨[], us, rfl, by simp⟩
  | cons kv rest ih =>
    obtain ⟨k, v⟩ := kv
    intro hwf us
    obtain ⟨a, ha, hsh⟩ := hact k v (hwf (k, v) (List.mem_cons_self _ _))
    have hrest : ∀ kv ∈ rest, wfEntry kv.2 = true :=
      fun kv2 hm => hwf kv2 (List.mem_cons_of_mem _ hm)
    rw [entriesOf]
    rw [ha, except_bind_ok]
    cases a with
    | skip => exact ih hrest us
    | user uid nm => exact ih hrest (dinsert us uid nm)
    | rev r0 =>
      dsimp only
      obtain ⟨l, us1, hrec, hl⟩ := ih hrest us
      rw [hrec, except_bind_ok]
      refine ⟨r0 :: l, us1, rfl, ?_⟩
      intro r hr
      rcases List.mem_cons.1 hr with h2 | h2
      · subst h2
        exact hsh _ rfl
      · exact hl r h2

theorem wfScript_obj (s : Script) (kvs : JObj)
    (h : s.parsedUnesc = some (.obj kvs)) :
    wfScript s = (JObj.toList kvs).all (fun kv => wfEntry kv.2) := by
  unfold wfScript
  rw [h]

theorem scriptsRevs_wf (act : String → JSON → Except Unit EAct)
    (hact : ∀ k v, wfEntry v = true →
      ∃ a, act k v = .ok a ∧ ∀ r, a = .rev r → preShape r) :
    ∀ (ss : List Script), (∀ s ∈ ss, wfScript s = true) →
      ∀ us, ∃ revs users', scriptsRevs act ss us = .ok (revs, users') ∧
        ∀ r ∈ revs, preShape r := by
  intro ss
  induction ss with
  | nil =>
    intro _ us
    exact ⟨[], us, rfl, by simp⟩
  | cons s rest ih =>
    intro hwf us
    have hs := hwf s (List.mem_cons_self _ _)
    have hrest : ∀ s2 ∈ rest, wfScript s2 = true :=
      fun s2 hm => hwf s2 (List.mem_cons_of_mem _ hm)
    rw [scriptsRevs]
    cases hpu : s.parsedUnesc with
    | none => exact ih hrest us
    | some j =>
      cases j with
      | obj kvs =>
        dsimp only
        rw [wfScript_obj s kvs hpu, List.all_eq_true] at hs
        obtain ⟨l1, us1, he, hl1⟩ := entriesOf_wf act hact (JObj.toList kvs) hs us
        rw [he, except_bind_ok]
        dsimp only
        obtain ⟨l2, us2, hrec, hl2⟩ := ih hrest us1
        rw [hrec, except_bind_ok]
        refine ⟨l1 ++ l2, us2, rfl, ?_⟩
        intro r hr
        rcases List.mem_append.1 hr with h2 | h2
        · exact hl1 r h2
        · exact hl2 r h2
      | null => exact ih hrest us
      | bool b => exact ih hrest us
      | num n => exact ih hrest us
      | str s2 => exact ih hrest us
      | arr xs => exact ih hrest us

theorem scraperAttach_keyReady (revs : List Rev) (users : List (String × String))
    (h : ∀ r ∈ revs, preShape r) :
    ∀ r ∈ scraperAttach revs users, keyReady r := by
  intro r hr
  simp only [scraperAttach, List.mem_map] at hr
  obtain ⟨r0, hr0, hmap⟩ := hr
  obtain ⟨⟨i, hi⟩, ⟨a, ha⟩, ⟨s, hs⟩⟩ := h r0 hr0
  rw [ha] at hmap
  subst hmap
  exact ⟨⟨i, hi⟩, Or.inr ⟨_, rfl⟩, ⟨s, hs⟩⟩

theorem parseAttach_keyReady (revs : List Rev) (users : List (String × String))
    (h : ∀ r ∈ revs, preShape r) :
    ∀ r ∈ parseAttach revs users, keyReady r := by
  intro r hr
  simp only [parseAttach, List.mem_map] at hr
  obtain ⟨r0, hr0, hmap⟩ := hr
  obtain ⟨⟨i, hi⟩, _, ⟨s, hs⟩⟩ := h r0 hr0
  subst hmap
  exact ⟨⟨i, hi⟩, Or.inr ⟨_, rfl⟩, ⟨s, hs⟩⟩

theorem domFallback_keyReady (cards : List Card) :
    ∀ r ∈ domFallback cards, keyReady r := by
  intro r hr
  rw [domFallback, List.mem_filterMap] at hr
  obtain ⟨t, _, ht⟩ := hr
  by_cases hq : looksLikeCard t
  · rw [if_pos hq] at ht
    set ps := (t.paragraphs.map norm).filter (fun p => p ≠ "") with hps
    by_cases htx : maxByLen ps = ""
    · rw [if_pos htx] at ht
      cases ht
    · rw [if_neg htx] at ht
      simp only [Option.some.injEq] at ht
      subst ht
      exact ⟨⟨"", rfl⟩, Or.inr ⟨_, rfl⟩, ⟨_, rfl⟩⟩
  · rw [if_neg hq] at ht
    cases ht

theorem keyOf_ready (r : Rev) (h : keyReady r) : ∃ k, keyOf r = .ok k := by
  obtain ⟨⟨i, hi⟩, hrev, ⟨s, hs⟩⟩ := h
  have hcomp : ∃ c, keyOf.compositeKey r = .ok (.str c) := by
    unfold keyOf.compositeKey
    rcases hrev with hnone | ⟨a, ha⟩
    · rw [hnone, hs]
      exact ⟨"" ++ "|" ++ s, rfl⟩
    · rw [ha, hs]
      exact ⟨a ++ "|" ++ s, rfl⟩
  unfold keyOf
  rw [hi]
  dsimp only
  by_cases ht : (JSON.str i).truthy
  · rw [if_pos ht]
    exact ⟨.str i, rfl⟩
  · rw [if_neg ht]
    obtain ⟨c, hc⟩ := hcomp
    rw [hc]
    exact ⟨.str c, rfl⟩

theorem dedupeAux_ok :
    ∀ (seen : List JSON) (l : List Rev), (∀ r ∈ l, keyReady r) →
      ∃ out, dedupeAux seen l = .ok out := by
  intro seen l
  induction l generalizing seen with
  | nil =>
    intro _
    exact ⟨[], rfl⟩
  | cons x xs ih =>
    intro h
    have hx := h x (List.mem_cons_self _ _)
    have hxs : ∀ r ∈ xs, keyReady r :=
      fun r hm => h r (List.mem_cons_of_mem _ hm)
    rw [dedupeAux]
    by_cases ht : truthyO x.text
    · rw [if_pos ht]
      obtain ⟨k, hk⟩ := keyOf_ready x hx
      rw [hk, except_bind_ok]
      by_cases hseen : seen.contains k
      · rw [if_pos hseen]
        exact ih seen hxs
      · rw [if_neg hseen]
        obtain ⟨out, hout⟩ := ih (k :: seen) hxs
        rw [hout, except_bind_ok]
        exact ⟨x :: out, rfl⟩
    · rw [if_neg ht]
      exact ih seen hxs

theorem datesOK_of_keyReady (l : List Rev) (h : ∀ r ∈ l, keyReady r) :
    datesOK l = true := by
  simp only [datesOK, List.all_eq_true]
  intro r hr
  obtain ⟨_, _, ⟨s, hs⟩⟩ := h r hr
  rw [hs]

theorem sortRevs_ok (l : List Rev) (h : datesOK l = true) :
    sortRevs l = .ok (l.insertionSort dateGE) := by
  unfold sortRevs
  rw [if_pos h]

theorem dedupeAndSort_ok (l : List Rev) (h : ∀ r ∈ l, keyReady r) :
    ∃ out, dedupeAndSort l = .ok out := by
  obtain ⟨d, hd⟩ := dedupeAux_ok [] l h
  have hdk : ∀ r ∈ d, keyReady r :=
    fun r hr => h r (dedupeAux_subset [] l d hd r hr)
  unfold dedupeAndSort
  rw [hd, except_bind_ok]
  exact ⟨_, sortRevs_ok d (datesOK_of_keyReady d hdk)⟩

theorem scraperFiles_wf (uesc : String → String) :
    ∀ (files : List Doc), (∀ d ∈ files, wfDocS d = true) →
      ∃ all, scraperFiles uesc files = .ok all ∧ ∀ r ∈ all, keyReady r := by
  intro files
  induction files with
  | nil =>
    intro _
    exact ⟨[], rfl, by simp⟩
  | cons d rest ih =>
    intro h
    have hd := h d (List.mem_cons_self _ _)
    have hrest : ∀ d2 ∈ rest, wfDocS d2 = true :=
      fun d2 hm => h d2 (List.mem_cons_of_mem _ hm)
    rw [wfDocS, List.all_eq_true] at hd
    obtain ⟨revs, users, hex, hsh⟩ := scriptsRevs_wf (entryActS uesc)
      (fun k v hv => entryActS_wf uesc k v hv) d.scripts hd []
    rw [scraperFiles]
    rw [show scraperExtract uesc d.scripts = .ok (revs, users) from hex,
      except_bind_ok]
    dsimp only
    obtain ⟨more, hmore, hkr⟩ := ih hrest
    rw [hmore, except_bind_ok]
    refine ⟨scraperAttach revs users ++ more, rfl, ?_⟩
    intro r hr
    rcases List.mem_append.1 hr with h2 | h2
    · exact scraperAttach_keyReady revs users hsh r h2
    · exact hkr r h2

theorem scraperMain_wf (uesc : String → String) (defaults : List (Option Doc))
    (pages : List Doc)
    (hne : defaults.filterMap id ++ pages ≠ [])
    (hwf : ∀ d ∈ defaults.filterMap id ++ pages, wfDocS d = true) :
    ∃ o, scraperMain uesc defaults pages = .ok o := by
  obtain ⟨all, hall, hkr⟩ := scraperFiles_wf uesc _ hwf
  obtain ⟨out, hout⟩ := dedupeAndSort_ok all hkr
  have hf : (defaults.filterMap id ++ pages).isEmpty = false := by
    cases hl : defaults.filterMap id ++ pages with
    | nil => exact absurd hl hne
    | cons x xs => rfl
  unfold scraperMain
  rw [if_neg (by simp [hf])]
  rw [hall, except_bind_ok, hout]
  exact ⟨_, rfl⟩

theorem bizIf_ok (info : Biz) (kvs : JObj) :
    (if bizMatches (JSON.obj kvs) then Except.ok (updateBiz info (JSON.obj kvs))
     else (Except.ok info : Except Unit Biz)) =
    Except.ok (if bizMatches (JSON.obj kvs) then updateBiz info (JSON.obj kvs)
               else info) := by
  by_cases hm : bizMatches (JSON.obj kvs)
  · rw [if_pos hm, if_pos hm]
  · rw [if_neg hm, if_neg hm]

theorem bizStep_wf (info : Biz) (d : JSON) (h : wfBlock d = true) :
    ∃ b, bizStep info d = .ok b := by
  cases d with
  | obj kvs =>
    rw [bizStep]
    rw [wfBlock] at h
    cases htype : (JSON.obj kvs).get? "@type" with
    | none => exact ⟨_, bizIf_ok info kvs⟩
    | some t =>
      rw [htype] at h
      cases t with
      | arr xs => cases h
      | obj k2 => cases h
      | null => exact ⟨_, bizIf_ok info kvs⟩
      | bool b => exact ⟨_, bizIf_ok info kvs⟩
      | num n => exact ⟨_, bizIf_ok info kvs⟩
      | str s => exact ⟨_, bizIf_ok info kvs⟩
  | null => exact ⟨info, rfl⟩
  | bool b => exact ⟨info, rfl⟩
  | num n => exact ⟨info, rfl⟩
  | str s => exact ⟨info, rfl⟩
  | arr xs => exact ⟨info, rfl⟩

theorem extractBizAux_wf :
    ∀ (blocks : List JSON) (info : Biz), (∀ d ∈ blocks, wfBlock d = true) →
      ∃ b, extractBizAux info blocks = .ok b := by
  intro blocks
  induction blocks with
  | nil =>
    intro info _
    exact ⟨info, rfl⟩
  | cons d rest ih =>
    intro info h
    obtain ⟨b1, hb1⟩ := bizStep_wf info d (h d (List.mem_cons_self _ _))
    rw [extractBizAux, hb1, except_bind_ok]
    exact ih b1 (fun d2 hm => h d2 (List.mem_cons_of_mem _ hm))

theorem wfLd_obj (s : Script) (kvs : JObj) (hl : s.isLd = true)
    (h : s.parsedRaw = some (.obj kvs)) :
    wfLd s = (match (JSON.obj kvs).get? "@type" with
      | some (.arr _) => false
      | some (.obj _) => false
      | _ => true) := by
  unfold wfLd
  rw [hl, h]
  rfl

theorem bizBlocks_wf (ss : List Script) (h : ∀ s ∈ ss, wfLd s = true) :
    ∀ d ∈ bizBlocks ss, wfBlock d = true := by
  intro d hd
  simp only [bizBlocks, List.mem_filterMap] at hd
  obtain ⟨s, hs, hsd⟩ := hd
  have hld := h s hs
  by_cases hl : s.isLd
  · rw [if_pos hl] at hsd
    cases d with
    | obj kvs =>
      rw [wfLd_obj s kvs hl hsd] at hld
      rw [wfBlock]
      cases htype : (JSON.obj kvs).get? "@type" with
      | none => rfl
      | some t =>
        rw [htype] at hld
        cases t with
        | arr xs => cases hld
        | obj k2 => cases hld
        | null => rfl
        | bool b => rfl
        | num n => rfl
        | str s2 => rfl
    | null => rfl
    | bool b => rfl
    | num n => rfl
    | str s2 => rfl
    | arr xs => rfl
  · rw [if_neg hl] at hsd
    cases hsd

theorem extractBusinessInfo_wf (scripts : List Script) (heading : Option String)
    (h : ∀ s ∈ scripts, wfLd s = true) :
    ∃ b, extractBusinessInfo scripts heading = .ok b := by
  obtain ⟨b0, hb0⟩ := extractBizAux_wf (bizBlocks scripts) {} (bizBlocks_wf scripts h)
  unfold extractBusinessInfo
  rw [hb0, except_bind_ok]
  by_cases hn : b0.name.truthy
  · rw [if_pos hn]
    exact ⟨b0, rfl⟩
  · rw [if_neg hn]
    cases heading with
    | some hd => exact ⟨_, rfl⟩
    | none => exact ⟨b0, rfl⟩

theorem parseBody_wf (uesc : String → String) (d : Doc)
    (hwf : wfDocP d = true) :
    ∃ out, parseBody uesc d = .ok out := by
  rw [wfDocP, Bool.and_eq_true] at hwf
  obtain ⟨hsw, hld⟩ := hwf
  rw [List.all_eq_true] at hsw hld
  obtain ⟨revs, users, hex, hsh⟩ := scriptsRevs_wf (entryActP uesc)
    (fun k v hv => entryActP_wf uesc k v hv) d.scripts hsw []
  obtain ⟨biz, hbiz⟩ := extractBusinessInfo_wf d.scripts d.heading hld
  have hkr : ∀ r ∈ (if (parseAttach revs users).isEmpty then domFallback d.cards
      else parseAttach revs users), keyReady r := by
    by_cases he : (parseAttach revs users).isEmpty
    · rw [if_pos he]
      exact domFallback_keyReady d.cards
    · rw [if_neg he]
      exact parseAttach_keyReady revs users hsh
  have hfs := sortRevs_ok _ (datesOK_of_keyReady _ hkr)
  unfold parseBody
  rw [show parseExtract uesc d.scripts = .ok (revs, users) from hex,
    except_bind_ok]
  dsimp only
  rw [hbiz, except_bind_ok, hfs, except_bind_ok]
  exact ⟨_, rfl⟩

theorem parseMain_wf (uesc : String → String) (d : Doc)
    (hwf : wfDocP d = true) :
    ∃ o, parseMain uesc (some d) = .ok o := by
  obtain ⟨out, hout⟩ := parseBody_wf uesc d hwf
  obtain ⟨biz, final⟩ := out
  rw [parseMain, hout]
  exact ⟨_, rfl⟩

theorem scraperMain_exit_iff (uesc : String → String)
    (defaults : List (Option Doc)) (pages : List Doc) :
    scraperMain uesc defaults pages = .error .exitNoInput ↔
      defaults.filterMap id ++ pages = [] := by
  constructor
  · intro h
    by_contra hne
    have hf : (defaults.filterMap id ++ pages).isEmpty = false := by
      cases hl : defaults.filterMap id ++ pages with
      | nil => exact absurd hl hne
      | cons x xs => rfl
    unfold scraperMain at h
    rw [if_neg (by simp [hf])] at h
    cases hsf : scraperFiles uesc (defaults.filterMap id ++ pages) with
    | error e =>
      rw [hsf, except_bind_error] at h
      simp at h
    | ok all =>
      rw [hsf, except_bind_ok] at h
      cases hds : dedupeAndSort all with
      | error e =>
        rw [hds] at h
        simp at h
      | ok final =>
        rw [hds] at h
        simp at h
  · intro h
    have hf : (defaults.filterMap id ++ pages).isEmpty = true := by
      rw [h]
      rfl
    unfold scraperMain
    rw [if_pos hf]

theorem parseMain_exit_iff (uesc : String → String) (input : Option Doc) :
    parseMain uesc input = .error .exitNoInput ↔ input = none := by
  cases input with
  | none => simp [parseMain]
  | some d =>
    constructor
    · intro h
      rw [parseMain] at h
      cases hb : parseBody uesc d with
      | error e =>
        rw [hb] at h
        simp at h
      | ok p =>
        obtain ⟨biz, final⟩ := p
        rw [hb] at h
        simp at h
    · intro h
      cases h

/-- Claim C8, counterexample: the claim's \"non-zero exit iff no input can be
located\" is refuted in both directions of its \"only other failure modes
degrade gracefully\" reading.  `crashDoc` is a located, readable input whose
only script block parses to a `Review` entry carrying `text` as a bare
string: `(val.get(\"text\") or {}).get(\"full\")` raises `AttributeError`
in both scripts, the run dies and the exit status is non-zero, with input
files present — so a record with ill-typed fields is NOT a gracefully
degraded partial output. -/
theorem c8_counterexample :
    scraperMain id [some crashDoc] [] = .error .pyCrash ∧
    parseMain id (some crashDoc) = .error .pyCrash ∧
    [some crashDoc].filterMap id ++ ([] : List Doc) ≠ [] ∧
    (some crashDoc : Option Doc) ≠ none := by decide

/-- Claim C8 (corrected): `sys.exit` fires exactly when no input is located
(scraper: all three default files missing and no extra pages; parse: the one
required input missing); on *well-typed* inputs — every parsed script entry
carries fields of the shapes the code expects, and no JSON-LD `@type` is an
unhashable list/dict — both runs complete and write their outputs, and a
document where no script block parses and no DOM card matches yields the
JSON output with `count` 0.  (Without the well-typedness restriction the
claim is false: an ill-typed parsed field crashes the run, see the
counterexample.) -/
theorem c8_amended_exit_iff_and_graceful :
    (∀ (uesc : String → String) (defaults : List (Option Doc))
        (pages : List Doc),
      scraperMain uesc defaults pages = .error .exitNoInput ↔
        defaults.filterMap id ++ pages = []) ∧
    (∀ (uesc : String → String) (input : Option Doc),
      parseMain uesc input = .error .exitNoInput ↔ input = none) ∧
    (∀ (uesc : String → String) (defaults : List (Option Doc))
        (pages : List Doc),
      defaults.filterMap id ++ pages ≠ [] →
      (∀ d ∈ defaults.filterMap id ++ pages, wfDocS d = true) →
      ∃ o, scraperMain uesc defaults pages = .ok o) ∧
    (∀ (uesc : String → String) (d : Doc), wfDocP d = true →
      ∃ o, parseMain uesc (some d) = .ok o) ∧
    parseMain id (some emptyishDoc) = .ok ⟨{}, 0, []⟩ :=
  ⟨scraperMain_exit_iff, parseMain_exit_iff, scraperMain_wf, parseMain_wf,
   by decide⟩

/-- Witness for the corrected claim C8 at a concrete input: `emptyishDoc`
satisfies the well-typedness side conditions, is a non-empty file list for
the scraper, and both runs complete successfully on it. -/
theorem c8_amended_exit_iff_and_graceful_witness :
    ([some emptyishDoc].filterMap id ++ ([] : List Doc) ≠ [] ∧
     wfDocS emptyishDoc = true ∧ wfDocP emptyishDoc = true) ∧
    (scraperMain id [some emptyishDoc] [] = .error .exitNoInput ↔
      [some emptyishDoc].filterMap id ++ ([] : List Doc) = []) ∧
    (parseMain id (some emptyishDoc) = .error .exitNoInput ↔
      (some emptyishDoc : Option Doc) = none) ∧
    (∃ o, scraperMain id [some emptyishDoc] [] = .ok o) ∧
    (∃ o, parseMain id (some emptyishDoc) = .ok o) :=
  ⟨⟨by decide, by decide, by decide⟩,
   c8_amended_exit_iff_and_graceful.1 id [some emptyishDoc] [],
   c8_amended_exit_iff_and_graceful.2.1 id (some emptyishDoc),
   c8_amended_exit_iff_and_graceful.2.2.1 id [some emptyishDoc] []
     (by decide) (by decide),
   c8_amended_exit_iff_and_graceful.2.2.2.1 id emptyishDoc (by decide)⟩

end Crawl
